import Mathlib

/-!
Verification of the knowledge-index build/maintain pipeline and the two-stage
localization query of the `se_agent` repository (a shallow embedding of
`src/se_agent/onboard_graph.py`, `src/se_agent/assist_graph.py`,
`src/se_agent/state.py` and `src/se_agent/utils/utils_misc.py`).

Strings are modelled as `List Char` (`Str`), SQLite relations as Lean lists of
row structures, and the LangGraph nodes as explicit state-passing functions.
The LLM summarization/ranking capability is an opaque function parameter, and
Python exceptions are modelled with `Except`.
-/

namespace SeAgent

abbrev Str := List Char

/-- Python `str.split(sep)` for a one-character separator:
`splitOnChar '/' "a/b" = ["a","b"]`, `splitOnChar '/' "" = [""]`. -/
def splitOnChar (sep : Char) : Str → List Str
  | [] => [[]]
  | c :: rest =>
    let r := splitOnChar sep rest
    if c = sep then [] :: r
    else (c :: r.headD []) :: r.tail

/-- `"/".join`-style inverse of `splitOnChar`. -/
def intercalateChar (sep : Char) : List Str → Str
  | [] => []
  | [s] => s
  | s :: rest => s ++ sep :: intercalateChar sep rest

/-- The whitespace characters recognised by Python's `str.strip` / regex `\s`
(ASCII range, which is all the sources ever feed it). -/
def isSpaceChar (c : Char) : Bool :=
  c = ' ' || c = '\t' || c = '\n' || c = '\r' || c = '\x0b' || c = '\x0c'

/-- Python `str.strip()`. -/
def pyStrip (s : Str) : Str :=
  ((s.dropWhile isSpaceChar).reverse.dropWhile isSpaceChar).reverse

/- ----------------------------------------------------------------------------
`os.path.relpath` and `group_by_top_level_packages`
(src/se_agent/utils/utils_misc.py, lines 37-64).
---------------------------------------------------------------------------- -/

/-- The component list `posixpath.relpath` works on: split on `/` and drop the
empty and `"."` components (which `abspath`'s normalization removes).  The
model is faithful for already-normalized relative paths, which is what the
Source Enumerator produces. -/
def pathComponents (p : Str) : List Str :=
  (splitOnChar '/' p).filter (fun c => !(c.isEmpty || c == ['.']))

/-- Length of the common prefix of two component lists
(`len(commonprefix([start_list, path_list]))`). -/
def commonPrefixLen : List Str → List Str → Nat
  | a :: as, b :: bs => if a = b then commonPrefixLen as bs + 1 else 0
  | _, _ => 0

/-- `posixpath.relpath(path, start)` on normalized relative paths:
`['..'] * (len(start_list)-i) + path_list[i:]`, joined with `/`
(`"."` when empty). -/
def relpath (path start : Str) : Str :=
  let pl := pathComponents path
  let sl := pathComponents start
  let i := commonPrefixLen sl pl
  let cs := List.replicate (sl.length - i) ['.', '.'] ++ pl.drop i
  if cs = [] then ['.'] else intercalateChar '/' cs

/-- The per-path body of `group_by_top_level_packages`
(utils_misc.py lines 52-57): relativize to the source folder, take the first
path segment if a separator remains, else the sentinel `"base"`. -/
def topLevelPackage (filePath srcFolder : Str) : Str :=
  let relPath := relpath filePath srcFolder
  if relPath.contains '/' then (splitOnChar '/' relPath).headD []
  else "base".toList

/-- Append `fp` to the entry of `pkg` in an insertion-ordered association list
(Python dict with `pkg_dict[package].append(file_path)`). -/
def insertGrouped (pkg : Str) (fp : Str) : List (Str × List Str) → List (Str × List Str)
  | [] => [(pkg, [fp])]
  | (k, v) :: rest =>
    if k = pkg then (k, v ++ [fp]) :: rest else (k, v) :: insertGrouped pkg fp rest

/-- `group_by_top_level_packages(filepaths, src_folder)`
(utils_misc.py lines 37-64), as an insertion-ordered association list. -/
def group_by_top_level_packages (filepaths : List Str) (srcFolder : Str) :
    List (Str × List Str) :=
  filepaths.foldl (fun acc fp => insertGrouped (topLevelPackage fp srcFolder) fp acc) []

/- ----------------------------------------------------------------------------
`shift_markdown_headings` (utils_misc.py lines 85-108):
`re.sub(r'^(#+)\s+(.*)$', replacer, content, flags=re.MULTILINE)` on the whole
content string.  With `re.MULTILINE`, `^` matches at the string start and
after every newline, and `$` at the string end and before every newline; but
`\s` also matches the newline itself, so on a line consisting only of hashes
(optionally followed by whitespace) the greedy `\s+` runs across the newline
and `(.*)` captures the NEXT line, merging the two lines into one shifted
heading.  The scan below mirrors the engine exactly: at each line start, if a
non-empty hash run is followed by a whitespace character (possibly the
newline), the maximal whitespace run and then the maximal newline-free text
are consumed and rewritten; otherwise the line is copied verbatim.
---------------------------------------------------------------------------- -/

/-- Length of the leading run of `#` characters (regex group `(#+)`). -/
def leadingHashes (l : Str) : Nat := (l.takeWhile (· == '#')).length

/-- Whether the pattern `(#+)\s+(.*)$` matches at the start of this string: a
non-empty leading hash run followed by at least one whitespace character
(which, on a full-document suffix, may be the newline).  Applied to a single
newline-free line, this is the line's heading test. -/
def isHeadingLine (l : Str) : Bool :=
  match l.drop (leadingHashes l) with
  | c :: _ => decide (0 < leadingHashes l) && isSpaceChar c
  | [] => false

/-- The replacement the regex produces from a match starting at `l`:
`'#' * (len(hashes) + increment)`, one space, and the `(.*)` capture.  On a
newline-free line this is the whole per-line effect of the substitution; the
scan below shows when the global substitution degenerates to it. -/
def shiftHeadingLine (increment : Nat) (l : Str) : Str :=
  if isHeadingLine l then
    List.replicate (leadingHashes l + increment) '#' ++
      ' ' :: (l.drop (leadingHashes l)).dropWhile isSpaceChar
  else l

/-- One pass of the substitution scan over the remaining content, which
always sits at a line start (`^` position).  The fuel only bounds the number
of steps: each step consumes at least one character, so `content.length` fuel
always suffices (the `0, _` row is unreachable from `shift_markdown_headings`
and returns the empty string). -/
def shiftScanGo (increment : Nat) : Nat → Str → Str
  | _, [] => []
  | 0, _ => []
  | fuel + 1, s =>
    if isHeadingLine s then
      -- the pattern matches here: `\s+` takes the maximal whitespace run
      -- (possibly across newlines), `(.*)` the maximal newline-free text
      let afterWs := (s.drop (leadingHashes s)).dropWhile isSpaceChar
      let text := afterWs.takeWhile (fun c => c != '\n')
      let tail := afterWs.dropWhile (fun c => c != '\n')
      List.replicate (leadingHashes s + increment) '#' ++ ' ' :: text ++
        (match tail with
         | [] => []
         | c :: rest2 => c :: shiftScanGo increment fuel rest2)
    else
      -- no match can start inside the line: copy it (and its newline)
      let line := s.takeWhile (fun c => c != '\n')
      let tail := s.dropWhile (fun c => c != '\n')
      line ++
        (match tail with
         | [] => []
         | c :: rest2 => c :: shiftScanGo increment fuel rest2)

/-- `shift_markdown_headings(content, increment)` (utils_misc.py line 108). -/
def shift_markdown_headings (content : Str) (increment : Nat) : Str :=
  shiftScanGo increment content.length content

/-- A line on which the substitution behaves per-line: not a non-empty hash
run followed by nothing or only whitespace.  On such a "bare" line the real
`\s+` crosses the newline and absorbs the following line. -/
def safeLine (l : Str) : Bool :=
  !(decide (0 < leadingHashes l) && (l.drop (leadingHashes l)).all isSpaceChar)

/-- `f"# {filepath}\n{shift_markdown_headings(summary, increment=1)}"`
(onboard_graph.py line 461): one per-file section of the package document. -/
def fileSection (filepath summary : Str) : Str :=
  ['#', ' '] ++ filepath ++ '\n' :: shift_markdown_headings summary 1

/-- `"\n\n".join(file_summaries)` (onboard_graph.py line 470). -/
def assemblePackageDocument : List (Str × Str) → Str
  | [] => []
  | [f] => fileSection f.1 f.2
  | f :: g :: rest => fileSection f.1 f.2 ++ '\n' :: '\n' :: assemblePackageDocument (g :: rest)

/-- The lines of a document that are level-1 headings (exactly one leading `#`
followed by whitespace). -/
def levelOneHeadings (doc : List Str) : List Str :=
  doc.filter (fun l => isHeadingLine l && leadingHashes l == 1)

/- ----------------------------------------------------------------------------
The knowledge store: the three SQLite relations created in
`save_file_summaries` (onboard_graph.py lines 306-339).  The unused
AUTOINCREMENT ids `file_id` is omitted (no query ever reads it); `repo_id` and
`package_id` are kept because rows reference them.
---------------------------------------------------------------------------- -/

structure RepoRow where
  repoId : Nat
  url : Str
  srcPath : Str
  branch : Str
  createdAt : Nat
  lastModifiedAt : Nat
deriving Repr, DecidableEq

structure PackageRow where
  packageId : Nat
  repoId : Nat
  packageName : Str
  summary : Option Str
  createdAt : Nat
  lastModifiedAt : Nat
deriving Repr, DecidableEq

structure FileRow where
  repoId : Nat
  packageId : Nat
  filePath : Str
  summary : Str
  createdAt : Nat
  lastModifiedAt : Nat
deriving Repr, DecidableEq

structure Store where
  repositories : List RepoRow
  packages : List PackageRow
  files : List FileRow
  nextRepoId : Nat
  nextPackageId : Nat
deriving Repr, DecidableEq

def Store.empty : Store := ⟨[], [], [], 1, 1⟩

/-- `FileSummary` (state.py lines 78-84). -/
structure FileSummary where
  filepath : Str
  summary : Str
deriving Repr, DecidableEq

/-- `FileSummaryError` (state.py lines 191-197).  Declared in the state schema
(`OnboardState.file_summary_errors`, state.py line 243) but never constructed
by any node of `onboard_graph.py`. -/
structure FileSummaryError where
  filepath : Str
  error : Str
deriving Repr, DecidableEq

/- ----------------------------------------------------------------------------
`handle_update` (onboard_graph.py lines 88-203).
---------------------------------------------------------------------------- -/

/-- `SELECT package_id FROM files WHERE repo_id = ? AND file_path IN deleted`
(onboard_graph.py lines 136-145): packages touched by the deleted paths. -/
def deletedTouched (s : Store) (repoId : Nat) (deleted : List Str) : Finset Nat :=
  ((s.files.filter (fun f => f.repoId == repoId && deleted.contains f.filePath)).map
    (·.packageId)).toFinset

/-- `DELETE FROM files WHERE repo_id = ? AND file_path IN deleted`
(onboard_graph.py lines 147-155). -/
def filesAfterDelete (s : Store) (repoId : Nat) (deleted : List Str) : List FileRow :=
  s.files.filter (fun f => !(f.repoId == repoId && deleted.contains f.filePath))

/-- `SELECT DISTINCT package_id FROM files WHERE repo_id = ?` after the
delete (onboard_graph.py lines 157-162): packages that still own a file. -/
def remainingAfterDelete (s : Store) (repoId : Nat) (deleted : List Str) : Finset Nat :=
  (((filesAfterDelete s repoId deleted).filter (fun f => f.repoId == repoId)).map
    (·.packageId)).toFinset

/-- `DELETE FROM packages WHERE repo_id = ? AND package_id NOT IN remaining`
— or all of the repo's packages when nothing remains (onboard_graph.py lines
164-175); both cases keep exactly the rows of other repos and the remaining
ids. -/
def pkgsKeptAfterDelete (s : Store) (repoId : Nat) (deleted : List Str) : List PackageRow :=
  s.packages.filter
    (fun p => !(p.repoId == repoId) ||
      decide (p.packageId ∈ remainingAfterDelete s repoId deleted))

/-- The deletion handling of `handle_update` (onboard_graph.py lines 130-185):
delete the files, prune orphan packages, and bump `last_modified_at` on
`touched ∩ remaining` (the impacted set). -/
def handleDeletedFiles (s : Store) (repoId : Nat) (deleted : List Str) (now : Nat) :
    List PackageRow × List FileRow × Finset Nat :=
  ((pkgsKeptAfterDelete s repoId deleted).map
    (fun p => if p.repoId == repoId &&
        decide (p.packageId ∈ deletedTouched s repoId deleted ∩ remainingAfterDelete s repoId deleted)
      then { p with lastModifiedAt := now } else p),
   filesAfterDelete s repoId deleted,
   deletedTouched s repoId deleted ∩ remainingAfterDelete s repoId deleted)

/-- `handle_update`: resolve the repository by URL (no-op when absent); when
there are deleted paths, apply `handleDeletedFiles`; always bump the
repository row.  Returns the updated store together with `none` (repo unknown:
the node returns `{"filepaths": []}`) or the returned
`(repo_id, filepaths = modified, packages_impacted)`. -/
def handle_update (s : Store) (url : Str) (modified deleted : List Str) (now : Nat) :
    Store × Option (Nat × List Str × Finset Nat) :=
  match s.repositories.find? (fun r => r.url == url) with
  | none => (s, none)
  | some repo =>
    let repoId := repo.repoId
    let del : List PackageRow × List FileRow × Finset Nat :=
      if deleted.isEmpty then (s.packages, s.files, (∅ : Finset Nat))
      else handleDeletedFiles s repoId deleted now
    let repos' := s.repositories.map
      (fun r => if r.repoId == repoId then { r with lastModifiedAt := now } else r)
    ({ s with repositories := repos', packages := del.1, files := del.2.1 },
     some (repoId, modified, del.2.2))

/- ----------------------------------------------------------------------------
`save_file_summaries` (onboard_graph.py lines 285-406).
---------------------------------------------------------------------------- -/

/-- `INSERT INTO files ... ON CONFLICT(repo_id, package_id, file_path) DO
UPDATE SET summary = excluded.summary, last_modified_at = CURRENT_TIMESTAMP`
(onboard_graph.py lines 391-396). -/
def upsertFileRow (files : List FileRow) (repoId packageId : Nat) (path summary : Str)
    (now : Nat) : List FileRow :=
  if files.any (fun f => f.repoId == repoId && f.packageId == packageId && f.filePath == path) then
    files.map (fun f =>
      if f.repoId == repoId && f.packageId == packageId && f.filePath == path
      then { f with summary := summary, lastModifiedAt := now } else f)
  else
    files ++ [{ repoId := repoId, packageId := packageId, filePath := path,
                summary := summary, createdAt := now, lastModifiedAt := now }]

/-- The body of the `for pkg_name, file_list in pkg_dict.items()` loop
(onboard_graph.py lines 370-396): fetch-or-insert the package row, record its
id as impacted, and upsert every file summary whose path lies in the group. -/
def processPackageGroup (repoId : Nat) (fileSummaries : List FileSummary) (now : Nat)
    (acc : Store × List Nat) (grp : Str × List Str) : Store × List Nat :=
  let s := acc.1
  let resolved : Store × Nat :=
    match s.packages.find? (fun p => p.repoId == repoId && p.packageName == grp.1) with
    | some p => (s, p.packageId)
    | none =>
      let pid := s.nextPackageId
      ({ s with
          packages := (s.packages ++
            [{ packageId := pid, repoId := repoId, packageName := grp.1,
               summary := none, createdAt := now, lastModifiedAt := now }]),
          nextPackageId := pid + 1 }, pid)
  let s' := resolved.1
  let packageId := resolved.2
  let files' := fileSummaries.foldl
    (fun fs fsum =>
      if grp.2.contains fsum.filepath
      then upsertFileRow fs repoId packageId fsum.filepath fsum.summary now
      else fs) s'.files
  ({ s' with files := files' }, acc.2 ++ [packageId])

structure SaveResult where
  store : Store
  repoId : Nat
  packagesImpacted : List Nat
deriving Repr, DecidableEq

/-- `save_file_summaries`: fetch-or-insert the repository row (bumping
`last_modified_at` when it exists), group the run's filepaths by top-level
package, and process each group.  Returns the new store, the repo id, and the
`packages_impacted` list that the node's return value REPLACES into the state
(state.py line 246 declares `packages_impacted` without a reducer). -/
def save_file_summaries (s : Store) (url srcFolder branch : Str)
    (filepaths : List Str) (fileSummaries : List FileSummary) (now : Nat) : SaveResult :=
  let resolved : Store × Nat :=
    match s.repositories.find?
        (fun r => r.url == url && r.srcPath == srcFolder && r.branch == branch) with
    | some r =>
      ({ s with repositories := (s.repositories.map
          (fun rr => if rr.repoId == r.repoId then { rr with lastModifiedAt := now } else rr)) },
       r.repoId)
    | none =>
      let rid := s.nextRepoId
      ({ s with
          repositories := (s.repositories ++
            [{ repoId := rid, url := url, srcPath := srcFolder, branch := branch,
               createdAt := now, lastModifiedAt := now }]),
          nextRepoId := rid + 1 }, rid)
  let repoId := resolved.2
  let pkgDict := group_by_top_level_packages filepaths srcFolder
  let final : Store × List Nat :=
    pkgDict.foldl (processPackageGroup repoId fileSummaries now) (resolved.1, [])
  ⟨final.1, repoId, final.2⟩

/-- `save_package_summaries` (onboard_graph.py lines 479-506): write each
generated package summary by `(repo_id, package_id)`. -/
def save_package_summaries (s : Store) (repoId : Nat) (pkgSummaries : List (Nat × Str))
    (now : Nat) : Store :=
  { s with packages := (pkgSummaries.foldl
      (fun ps psum => ps.map
        (fun p => if p.repoId == repoId && p.packageId == psum.1
                  then { p with summary := some psum.2, lastModifiedAt := now } else p))
      s.packages) }

/- ----------------------------------------------------------------------------
`generate_file_summary` (onboard_graph.py lines 235-282) and the fan-out.
---------------------------------------------------------------------------- -/

/-- `generate_file_summary` for one dispatched file.  `fetchResult` is the
outcome of the content fetch (local read or GitHub API) and `summarize` the
LLM capability; the function body contains NO try/except, so either failure
propagates out of the node.  On success the returned dict carries only
`file_summaries` — no `file_summary_errors` entry is ever produced. -/
def generate_file_summary :
    Except Str (Option Str) → (Str → Except Str Str) → Str →
    Except Str (List FileSummary × List FileSummaryError)
  | .error e, _, _ => .error e
  | .ok none, _, _ => .ok ([], [])
  | .ok (some content), summarize, filepath =>
    if pyStrip content = [] then .ok ([], [])
    else
      match summarize content with
      | .error e => .error e
      | .ok summ => .ok ([⟨filepath, summ⟩], [])

/-- One join step of the fan-out: append the unit's lists (the
`add_or_delete` reducer), unless the unit or an earlier one raised — LangGraph
fails the whole run with the first uncaught node exception. -/
def fanOutStep (acc u : Except Str (List FileSummary × List FileSummaryError)) :
    Except Str (List FileSummary × List FileSummaryError) :=
  match acc, u with
  | .error e, _ => .error e
  | .ok _, .error e => .error e
  | .ok (ss, es), .ok (s2, e2) => .ok (ss ++ s2, es ++ e2)

/-- The fan-out join over the dispatched `generate_file_summary` units. -/
def fan_out_file_summaries
    (units : List (Except Str (List FileSummary × List FileSummaryError))) :
    Except Str (List FileSummary × List FileSummaryError) :=
  units.foldl fanOutStep (.ok ([], []))

/- ----------------------------------------------------------------------------
The build pipeline runs (the compiled `OnboardGraph`, onboard_graph.py lines
528-548).  `continue_to_save_file_summaries` (lines 206-232) routes a run with
no filepaths but impacted packages straight to package summarization; with no
filepaths and no impacted packages it dispatches zero units and the run ends.
`fileSummaries` is the joined fan-out output and `pkgSummaries` the package
summarization capability's output.
---------------------------------------------------------------------------- -/

/-- An onboarding run after file summarization: persist the file summaries,
then write the package summaries for the impacted packages. -/
def onboard_run (s : Store) (url srcFolder branch : Str) (filepaths : List Str)
    (fileSummaries : List FileSummary) (pkgSummaries : List (Nat × Str)) (now : Nat) :
    Store × Finset Nat :=
  if filepaths = [] then (s, ∅)
  else
    let r := save_file_summaries s url srcFolder branch filepaths fileSummaries now
    (save_package_summaries r.store r.repoId pkgSummaries now, r.packagesImpacted.toFinset)

/-- An update run: `handle_update`, then either the shortcut edge to package
summarization (pure deletions), or file summarization and persistence — whose
returned `packages_impacted` value overwrites the deletion-impacted set.
Returns the final store and the set of packages sent to package
summarization. -/
def update_run (s : Store) (url srcFolder branch : Str) (modified deleted : List Str)
    (fileSummaries : List FileSummary) (pkgSummaries : List (Nat × Str)) (now : Nat) :
    Store × Finset Nat :=
  match handle_update s url modified deleted now with
  | (s1, none) => (s1, ∅)
  | (s1, some (repoId, filepaths, impactedByDeletion)) =>
    if filepaths = [] then
      if impactedByDeletion ≠ ∅ then
        (save_package_summaries s1 repoId pkgSummaries now, impactedByDeletion)
      else (s1, ∅)
    else
      let r := save_file_summaries s1 url srcFolder branch filepaths fileSummaries now
      (save_package_summaries r.store r.repoId pkgSummaries now, r.packagesImpacted.toFinset)

/-- One completed build run (Onboard or Update mode). -/
inductive BuildRun where
  | onboard (url srcFolder branch : Str) (filepaths : List Str)
      (fileSummaries : List FileSummary) (pkgSummaries : List (Nat × Str)) (now : Nat)
  | update (url srcFolder branch : Str) (modified deleted : List Str)
      (fileSummaries : List FileSummary) (pkgSummaries : List (Nat × Str)) (now : Nat)

def BuildRun.apply (s : Store) : BuildRun → Store
  | .onboard u sf b fps sums psums now => (onboard_run s u sf b fps sums psums now).1
  | .update u sf b mods dels sums psums now => (update_run s u sf b mods dels sums psums now).1

def apply_build_runs (s : Store) (runs : List BuildRun) : Store :=
  runs.foldl BuildRun.apply s

/- ----------------------------------------------------------------------------
The localization pipeline (`AssistGraph`, src/se_agent/assist_graph.py).
The ranking capability (`model.with_structured_output(...).ainvoke`) is an
opaque function parameter.
---------------------------------------------------------------------------- -/

/-- `PackageSuggestion` (state.py lines 260-267). -/
structure PackageSuggestion where
  packageName : Str
  rationale : Str
deriving Repr, DecidableEq

/-- `FileSuggestion` (state.py lines 280-287). -/
structure FileSuggestion where
  filepath : Str
  rationale : Str
deriving Repr, DecidableEq

/-- The state written by `localize_packages` (assist_graph.py lines 98-102). -/
structure PkgLocalization where
  repoId : Nat
  packageNameIndex : List (Str × Nat)
  packageSuggestions : List PackageSuggestion
deriving Repr, DecidableEq

/-- `package_name_index[package_name] = Package(...)` over the fetched rows:
a Python dict written in iteration order (a later row with the same name
overwrites the earlier one). -/
def dictInsert (k : Str) (v : Nat) : List (Str × Nat) → List (Str × Nat)
  | [] => [(k, v)]
  | (k0, v0) :: rest =>
    if k0 = k then (k, v) :: rest else (k0, v0) :: dictInsert k v rest

/-- `package_name_index[name]` read access: `KeyError` when absent. -/
def dictLookup (idx : List (Str × Nat)) (k : Str) : Option Nat :=
  (idx.find? (fun e => e.1 == k)).map (·.2)

/-- `localize_packages` (assist_graph.py lines 26-102): fetch the repo id by
`(url, src_path, branch)` — the `fetchone()` result is subscripted with NO
presence check (line 62), so a missing repository raises `TypeError` — then
fetch the repo's package rows, build the name index, and hand the summaries
corpus to the ranking capability. -/
def localize_packages (s : Store) (url srcFolder branch : Str)
    (rankPackages : List (Option Str) → List PackageSuggestion) :
    Except Str PkgLocalization :=
  match s.repositories.find?
      (fun r => r.url == url && r.srcPath == srcFolder && r.branch == branch) with
  | none => .error "TypeError: NoneType is not subscriptable".toList
  | some repo =>
    let rows := s.packages.filter (fun p => p.repoId == repo.repoId)
    let idx := rows.foldl (fun d p => dictInsert p.packageName p.packageId d) []
    .ok ⟨repo.repoId, idx, rankPackages (rows.map (·.summary))⟩

/-- `localize_files` (assist_graph.py lines 105-164): resolve the suggested
package names through `package_name_index` (an unknown name raises
`KeyError`), fetch the file rows of those packages, and hand the
`(file_path, summary)` corpus to the ranking capability, whose suggestions are
returned unchecked. -/
def localize_files (s : Store) (loc : PkgLocalization)
    (rankFiles : List (Str × Str) → List FileSuggestion) :
    Except Str (List FileSuggestion) :=
  match loc.packageSuggestions.mapM
      (fun pk => dictLookup loc.packageNameIndex pk.packageName) with
  | none => .error "KeyError".toList
  | some packageIds =>
    let rows := s.files.filter (fun f => f.repoId == loc.repoId && packageIds.contains f.packageId)
    .ok (rankFiles (rows.map (fun f => (f.filePath, f.summary))))

/-- The file paths stored in the index for the given package ids of a
repository ("files belonging to the packages returned by stage 1"). -/
def filesOfPackages (s : Store) (repoId : Nat) (packageIds : List Nat) : List Str :=
  (s.files.filter (fun f => f.repoId == repoId && packageIds.contains f.packageId)).map
    (·.filePath)

/- ----------------------------------------------------------------------------
Store invariants.
---------------------------------------------------------------------------- -/

/-- Every Package row has at least one File row referencing it. -/
def orphanFree (s : Store) : Prop :=
  ∀ p ∈ s.packages, ∃ f ∈ s.files, f.repoId = p.repoId ∧ f.packageId = p.packageId

instance : DecidablePred orphanFree := fun s => by
  unfold orphanFree; infer_instance

/-- The `src_path` column of the repository row with the given id
(the empty string when the id is unknown). -/
def srcOfRepos (repos : List RepoRow) (rid : Nat) : Str :=
  ((repos.find? (fun r => r.repoId == rid)).map (·.srcPath)).getD []

def srcOf (s : Store) (rid : Nat) : Str := srcOfRepos s.repositories rid

/-- The business key `(repo_id, package_name)` of a package row. -/
def pkgKey (p : PackageRow) : Nat × Str := (p.repoId, p.packageName)

/-- The conflict target `(repo_id, package_id, file_path)` of the file
upsert. -/
def fileKey (f : FileRow) : Nat × Nat × Str := (f.repoId, f.packageId, f.filePath)

/-- `UNIQUE(repo_id, package_name)` on the packages relation. -/
def pkgKeysNodup (s : Store) : Prop := (s.packages.map pkgKey).Nodup

/-- Package ids (AUTOINCREMENT primary keys) are pairwise distinct. -/
def pkgIdsNodup (s : Store) : Prop := (s.packages.map (·.packageId)).Nodup

def pkgIdsBound (s : Store) : Prop := ∀ p ∈ s.packages, p.packageId < s.nextPackageId

/-- Repository ids are pairwise distinct. -/
def repoIdsNodup (s : Store) : Prop := (s.repositories.map (·.repoId)).Nodup

def repoIdsBound (s : Store) : Prop := ∀ r ∈ s.repositories, r.repoId < s.nextRepoId

/-- `UNIQUE(repo_id, package_id, file_path)` on the files relation. -/
def fileKeysNodup (s : Store) : Prop := (s.files.map fileKey).Nodup

/-- A file key `(repo_id, package_id, file_path)` is linked: a package row
with that id exists in the same repository, named by the top-level package of
the file's path under the repository's source folder. -/
def LinkedKey (repos : List RepoRow) (pkgs : List PackageRow) (k : Nat × Nat × Str) : Prop :=
  ∃ p ∈ pkgs, p.repoId = k.1 ∧ p.packageId = k.2.1 ∧
    p.packageName = topLevelPackage k.2.2 (srcOfRepos repos k.1)

/-- Every file row is linked to the package row its path groups into. -/
def filesLinked (s : Store) : Prop :=
  ∀ f ∈ s.files, LinkedKey s.repositories s.packages (fileKey f)

/-- Every file row's repository id has a repository row. -/
def filesRepoKnown (s : Store) : Prop :=
  ∀ f ∈ s.files, ∃ r ∈ s.repositories, r.repoId = f.repoId

/-- The inductive invariant maintained by every build-pipeline store write. -/
def StoreInv (s : Store) : Prop :=
  repoIdsNodup s ∧ repoIdsBound s ∧ pkgKeysNodup s ∧ pkgIdsNodup s ∧ pkgIdsBound s ∧
    fileKeysNodup s ∧ filesLinked s ∧ filesRepoKnown s

/-- At most one File row per `(repository id, path)`. -/
def filePathKeysNodup (s : Store) : Prop :=
  (s.files.map (fun f => (f.repoId, f.filePath))).Nodup

/-- The bookkeeping carried through the `save_file_summaries` fold over the
package groups: the repositories relation is untouched by the fold, and the
uniqueness and linkage invariants hold at every intermediate store. -/
structure SaveFoldInv (repos1 : List RepoRow) (nrid1 rid : Nat) (acc : Store × List Nat) :
    Prop where
  repos_eq : acc.1.repositories = repos1
  nextRepo_eq : acc.1.nextRepoId = nrid1
  pkgKeys : (acc.1.packages.map pkgKey).Nodup
  pkgIds : (acc.1.packages.map (·.packageId)).Nodup
  pkgBound : ∀ p ∈ acc.1.packages, p.packageId < acc.1.nextPackageId
  fileKeys : (acc.1.files.map fileKey).Nodup
  linked : ∀ f ∈ acc.1.files, LinkedKey repos1 acc.1.packages (fileKey f)
  known : ∀ f ∈ acc.1.files, ∃ r ∈ repos1, r.repoId = f.repoId

/- ----------------------------------------------------------------------------
Concrete fixtures used by the counterexamples and witnesses below.
---------------------------------------------------------------------------- -/

/-- A repository `u` with `a.py` and `b.py` both under `pkgX`. -/
def deltaScenarioStore : Store :=
  { repositories := [⟨7, "u".toList, "src".toList, "main".toList, 0, 0⟩],
    packages := [⟨3, 7, "pkgX".toList, some "ps".toList, 0, 0⟩],
    files := [⟨7, 3, "src/pkgX/a.py".toList, "sa".toList, 0, 0⟩,
              ⟨7, 3, "src/pkgX/b.py".toList, "sb".toList, 0, 0⟩],
    nextRepoId := 8, nextPackageId := 4 }

/-- A repository `u` with `pkgA = {a1.py, a2.py}` and `pkgB = {b.py}`. -/
def unionScenarioStore : Store :=
  { repositories := [⟨1, "u".toList, "src".toList, "main".toList, 0, 0⟩],
    packages := [⟨1, 1, "pkgA".toList, some "sA".toList, 0, 0⟩,
                 ⟨2, 1, "pkgB".toList, some "sB".toList, 0, 0⟩],
    files := [⟨1, 1, "src/pkgA/a1.py".toList, "s1".toList, 0, 0⟩,
              ⟨1, 1, "src/pkgA/a2.py".toList, "s2".toList, 0, 0⟩,
              ⟨1, 2, "src/pkgB/b.py".toList, "s3".toList, 0, 0⟩],
    nextRepoId := 2, nextPackageId := 3 }

/-- An onboarded repository with one package `pkgA` owning one file. -/
def assistScenarioStore : Store :=
  { repositories := [⟨1, "u".toList, "src".toList, "main".toList, 0, 0⟩],
    packages := [⟨10, 1, "pkgA".toList, some "sA".toList, 0, 0⟩],
    files := [⟨1, 10, "src/pkgA/a.py".toList, "s".toList, 0, 0⟩],
    nextRepoId := 2, nextPackageId := 11 }

/-- A ranking capability that always judges `pkgA` relevant. -/
def rankPackagesPkgA : List (Option Str) → List PackageSuggestion :=
  fun _ => [⟨"pkgA".toList, "r".toList⟩]

/-- A file-ranking capability that returns a filepath absent from its corpus. -/
def rankFilesRogue : List (Str × Str) → List FileSuggestion :=
  fun _ => [⟨"rogue.py".toList, "r".toList⟩]

/-- A file-ranking capability that echoes its corpus. -/
def rankFilesEcho : List (Str × Str) → List FileSuggestion :=
  fun corpus => corpus.map (fun c => ⟨c.1, "r".toList⟩)

/-- A summarization capability that always succeeds. -/
def constSummarizer : Str → Except Str Str := fun _ => .ok "S".toList

/- ============================================================================
Theorems
============================================================================ -/

/-- C4: for a repository with `{a.py, b.py}` under `pkgX`, an update deleting
only `a.py` removes just `a.py`'s File row, keeps `pkgX` with its
last-modified time bumped and `b.py`'s row untouched, and marks `pkgX`
impacted; an update deleting both removes both File rows and the `pkgX`
Package row and marks no package impacted. -/
theorem delta_completeness_of_deletion_handling :
    (handle_update deltaScenarioStore "u".toList [] ["src/pkgX/a.py".toList] 99 =
      ({ repositories := [⟨7, "u".toList, "src".toList, "main".toList, 0, 99⟩],
         packages := [⟨3, 7, "pkgX".toList, some "ps".toList, 0, 99⟩],
         files := [⟨7, 3, "src/pkgX/b.py".toList, "sb".toList, 0, 0⟩],
         nextRepoId := 8, nextPackageId := 4 },
       some (7, [], {3})))
  ∧ (handle_update deltaScenarioStore "u".toList []
        ["src/pkgX/a.py".toList, "src/pkgX/b.py".toList] 99 =
      ({ repositories := [⟨7, "u".toList, "src".toList, "main".toList, 0, 99⟩],
         packages := [],
         files := [],
         nextRepoId := 8, nextPackageId := 4 },
       some (7, [], ∅))) := by
  constructor <;> decide

/-- C5 counterexample: for the in-root file `src/a.py` with source root `src`,
the package-grouping function returns the sentinel `"base"`, not `"root"` as
the claim states. -/
theorem group_sentinel_is_not_root :
    topLevelPackage "src/a.py".toList "src".toList ≠ "root".toList ∧
    topLevelPackage "src/a.py".toList "src".toList = "base".toList := by
  constructor <;> decide

/-- C2 counterexample: on a store where `pkgA = {a1.py, a2.py}` and
`pkgB = {b.py}`, an update with `deleted = [a1.py]` and `modified = [b.py]`
computes the deletion-impacted set `{pkgA}`, yet the set sent to package
re-summarization is `{pkgB}` alone: `pkgA` is dropped, so the final set is
not the union `{pkgA, pkgB}`. -/
theorem update_union_counterexample :
    ((handle_update unionScenarioStore "u".toList ["src/pkgB/b.py".toList]
        ["src/pkgA/a1.py".toList] 9).2 =
      some (1, ["src/pkgB/b.py".toList], {1}))
  ∧ ((update_run unionScenarioStore "u".toList "src".toList "main".toList
        ["src/pkgB/b.py".toList] ["src/pkgA/a1.py".toList]
        [⟨"src/pkgB/b.py".toList, "s3b".toList⟩] [] 9).2 = {2})
  ∧ (1 : Nat) ∉ (update_run unionScenarioStore "u".toList "src".toList "main".toList
        ["src/pkgB/b.py".toList] ["src/pkgA/a1.py".toList]
        [⟨"src/pkgB/b.py".toList, "s3b".toList⟩] [] 9).2 := by
  refine ⟨by decide, by decide, by decide⟩

/-- C3 counterexample: onboarding a repository whose only file has empty
content (so the fan-out produced no file summary) creates the `pkgE` Package
row with zero File rows — the resulting store violates the orphan-free
invariant. -/
theorem orphan_package_counterexample :
    ¬ orphanFree (onboard_run Store.empty "u".toList "src".toList "main".toList
        ["src/pkgE/empty.py".toList] [] [] 5).1 ∧
    (onboard_run Store.empty "u".toList "src".toList "main".toList
        ["src/pkgE/empty.py".toList] [] [] 5).1.packages ≠ [] := by
  constructor <;> decide

/-- C7 counterexample: stage 1 selects `pkgA` (whose only stored file is
`src/pkgA/a.py`), but a ranking capability that answers `rogue.py` makes
stage 2 return a filepath outside the files of the stage-1 packages — the
pipeline returns it unchecked. -/
theorem narrowing_counterexample :
    ((localize_packages assistScenarioStore "u".toList "src".toList "main".toList
        rankPackagesPkgA).bind
      (fun loc => localize_files assistScenarioStore loc rankFilesRogue) =
      .ok [⟨"rogue.py".toList, "r".toList⟩])
  ∧ filesOfPackages assistScenarioStore 1 [10] = ["src/pkgA/a.py".toList]
  ∧ "rogue.py".toList ∉ filesOfPackages assistScenarioStore 1 [10] := by
  refine ⟨rfl, by decide, by decide⟩

/-- C1 counterexample: with two dispatched files where fetching `x.py` raises
`boom` and `y.py` is healthy, the fan-out join yields the error — the run
aborts instead of continuing with an error record ( `generate_file_summary`
has no try/except and never returns a `file_summary_errors` entry). -/
theorem fan_out_failure_aborts_run :
    fan_out_file_summaries
      [generate_file_summary (.error "boom".toList) constSummarizer "x.py".toList,
       generate_file_summary (.ok (some "print(1)".toList)) constSummarizer "y.py".toList]
    = .error "boom".toList := rfl

/-- Once the fan-out accumulator is an error, it stays that error. -/
theorem fanOut_foldl_error (units : List (Except Str (List FileSummary × List FileSummaryError)))
    (e : Str) :
    units.foldl fanOutStep (.error e) = .error e := by
  induction units with
  | nil => rfl
  | cons u rest ih => exact ih

/-- A failed unit anywhere in the fan-out makes the join fail, whatever has
been accumulated so far. -/
theorem fanOut_foldl_mem_error
    (units : List (Except Str (List FileSummary × List FileSummaryError))) (e : Str)
    (init : Except Str (List FileSummary × List FileSummaryError))
    (hmem : Except.error e ∈ units) :
    ∃ e2, units.foldl fanOutStep init = .error e2 := by
  induction units generalizing init with
  | nil => cases hmem
  | cons u rest ih =>
    rcases List.mem_cons.mp hmem with h | h
    · subst h
      match init with
      | .error e0 => exact ⟨e0, fanOut_foldl_error rest e0⟩
      | .ok (ss, es) => exact ⟨e, fanOut_foldl_error rest e⟩
    · exact ih (fanOutStep init u) h

/-- C1 amended: per-unit failures in the file-summarization fan-out are NOT
caught locally.  (a) A fetch failure propagates out of
`generate_file_summary` unchanged; (b) a summarizer failure on non-blank
content propagates likewise; (c) a fan-out containing any failed unit makes
the joined run fail (LangGraph aborts on an uncaught node exception), so no
`{path, error}` record is ever produced — indeed `generate_file_summary`
returns an empty `file_summary_errors` component in every successful case;
(d) the one locally handled case, empty/whitespace-only content, yields no
summary and no error record while the sibling units' joined result is
returned unchanged. -/
theorem file_summary_failure_not_contained :
    (∀ (e : Str) (summarize : Str → Except Str Str) (filepath : Str),
       generate_file_summary (.error e) summarize filepath = .error e)
  ∧ (∀ (content : Str) (summarize : Str → Except Str Str) (filepath e : Str),
       pyStrip content ≠ [] → summarize content = .error e →
       generate_file_summary (.ok (some content)) summarize filepath = .error e)
  ∧ (∀ (units : List (Except Str (List FileSummary × List FileSummaryError))) (e : Str),
       Except.error e ∈ units →
       ∃ e2, fan_out_file_summaries units = .error e2)
  ∧ (∀ (fetchResult : Except Str (Option Str)) (summarize : Str → Except Str Str)
       (filepath : Str) (out : List FileSummary × List FileSummaryError),
       generate_file_summary fetchResult summarize filepath = .ok out → out.2 = [])
  ∧ (∀ (content : Str) (summarize : Str → Except Str Str) (filepath : Str)
       (rest : List (Except Str (List FileSummary × List FileSummaryError))),
       pyStrip content = [] →
       (generate_file_summary (.ok (some content)) summarize filepath = .ok ([], [])
        ∧ fan_out_file_summaries
            (generate_file_summary (.ok (some content)) summarize filepath :: rest) =
          fan_out_file_summaries rest)) := by
  refine ⟨fun e summarize filepath => rfl, ?_, ?_, ?_, ?_⟩
  · intro content summarize filepath e hne hsum
    show (if pyStrip content = [] then _ else _) = _
    rw [if_neg hne, hsum]
  · intro units e hmem
    exact fanOut_foldl_mem_error units e (.ok ([], [])) hmem
  · intro fetchResult summarize filepath out heq
    match fetchResult with
    | .error e0 => cases heq
    | .ok none => cases heq; rfl
    | .ok (some content) =>
      rw [show generate_file_summary (.ok (some content)) summarize filepath =
          (if pyStrip content = [] then .ok ([], [])
           else match summarize content with
             | .error e => .error e
             | .ok summ => .ok ([⟨filepath, summ⟩], [])) from rfl] at heq
      by_cases hb : pyStrip content = []
      · rw [if_pos hb] at heq; cases heq; rfl
      · rw [if_neg hb] at heq
        match hs : summarize content with
        | .error e0 => rw [hs] at heq; cases heq
        | .ok summ => rw [hs] at heq; cases heq; rfl
  · intro content summarize filepath rest hb
    have hgen : generate_file_summary (.ok (some content)) summarize filepath = .ok ([], []) := by
      show (if pyStrip content = [] then _ else _) = _
      rw [if_pos hb]
    refine ⟨hgen, ?_⟩
    unfold fan_out_file_summaries
    rw [List.foldl_cons, hgen]
    rfl

/-- C1 witness: a blank file is handled locally with no summary and no error
record, and a fan-out containing a failed unit fails. -/
theorem file_summary_failure_not_contained_witness :
    (generate_file_summary (.ok (some "  ".toList)) constSummarizer "x.py".toList = .ok ([], []))
    ∧ ∃ e2, fan_out_file_summaries [Except.error "boom".toList] = .error e2 :=
  ⟨(file_summary_failure_not_contained.2.2.2.2 "  ".toList constSummarizer "x.py".toList []
      (by decide)).1,
   file_summary_failure_not_contained.2.2.1 [Except.error "boom".toList] "boom".toList
     (by simp)⟩

/-- C7 amended: the subset property holds for every ranking capability that
only cites filepaths present in the corpus it was shown: whenever stage 2
succeeds, every returned filepath is among the files stored for the resolved
stage-1 package ids. -/
theorem narrowing_monotone_for_corpus_bound_capability
    (s : Store) (loc : PkgLocalization)
    (rankFiles : List (Str × Str) → List FileSuggestion)
    (res : List FileSuggestion) (packageIds : List Nat)
    (hcap : ∀ (corpus : List (Str × Str)) (fsug : FileSuggestion),
      fsug ∈ rankFiles corpus → fsug.filepath ∈ corpus.map Prod.fst)
    (hids : loc.packageSuggestions.mapM
      (fun pk => dictLookup loc.packageNameIndex pk.packageName) = some packageIds)
    (hok : localize_files s loc rankFiles = .ok res) :
    ∀ fsug ∈ res, fsug.filepath ∈ filesOfPackages s loc.repoId packageIds := by
  unfold localize_files at hok
  rw [hids] at hok
  have hres : res = rankFiles
      ((s.files.filter (fun f => f.repoId == loc.repoId && packageIds.contains f.packageId)).map
        (fun f => (f.filePath, f.summary))) := by
    cases hok; rfl
  intro fsug hmem
  subst hres
  have := hcap _ fsug hmem
  rw [List.map_map] at this
  unfold filesOfPackages
  exact this

/-- C7 amended witness: a capability that echoes its corpus stays inside the
stage-1 packages' files. -/
theorem narrowing_monotone_witness :
    (⟨"src/pkgA/a.py".toList, "r".toList⟩ : FileSuggestion).filepath ∈
      filesOfPackages assistScenarioStore 1 [10] :=
  narrowing_monotone_for_corpus_bound_capability assistScenarioStore
    ⟨1, [("pkgA".toList, 10)], [⟨"pkgA".toList, "r".toList⟩]⟩ rankFilesEcho
    [⟨"src/pkgA/a.py".toList, "r".toList⟩] [10]
    (by
      intro corpus fsug hmem
      unfold rankFilesEcho at hmem
      rcases List.mem_map.mp hmem with ⟨c, hc, hceq⟩
      subst hceq
      exact List.mem_map.mpr ⟨c, hc, rfl⟩)
    rfl rfl
    ⟨"src/pkgA/a.py".toList, "r".toList⟩ (by simp)

/-- C2 amended: for an update run whose modified set is non-empty, the set
sent to package re-summarization is NOT the union with the deletion-impacted
set: `OnboardState.packages_impacted` carries no reducer, so the
`save_file_summaries` return value replaces it — the final set equals exactly
the packages touched while persisting the modified files, and any
deletion-impacted package outside that set is dropped.  Only a pure-deletion
update (empty modified set) keeps the deletion-impacted set, via the shortcut
edge. -/
theorem update_run_impacted_is_overwritten
    (s s1 : Store) (url srcFolder branch : Str) (modified deleted : List Str)
    (fileSummaries : List FileSummary) (pkgSummaries : List (Nat × Str)) (now : Nat)
    (repoId : Nat) (impactedByDeletion : Finset Nat)
    (hup : handle_update s url modified deleted now =
      (s1, some (repoId, modified, impactedByDeletion))) :
    (modified ≠ [] →
      ((update_run s url srcFolder branch modified deleted fileSummaries pkgSummaries now).2 =
        (save_file_summaries s1 url srcFolder branch modified fileSummaries now).packagesImpacted.toFinset
      ∧ ∀ pid ∈ impactedByDeletion,
          pid ∉ (save_file_summaries s1 url srcFolder branch modified fileSummaries
            now).packagesImpacted →
          pid ∉ (update_run s url srcFolder branch modified deleted fileSummaries
            pkgSummaries now).2))
  ∧ (modified = [] → impactedByDeletion ≠ ∅ →
      (update_run s url srcFolder branch modified deleted fileSummaries pkgSummaries now).2 =
        impactedByDeletion) := by
  constructor
  · intro hmod
    have hrun : (update_run s url srcFolder branch modified deleted fileSummaries
        pkgSummaries now).2 =
        (save_file_summaries s1 url srcFolder branch modified fileSummaries
          now).packagesImpacted.toFinset := by
      unfold update_run
      rw [hup]
      simp [hmod]
    refine ⟨hrun, ?_⟩
    intro pid _ hnot
    rw [hrun]
    simpa using hnot
  · intro hmod hne
    unfold update_run
    rw [hup]
    simp [hmod, hne]

/-- C2 amended witness: on the two-package scenario, the deletion-impacted
package `pkgA` (id 1) is dropped because persisting the modified `b.py`
returns `[2]` alone. -/
theorem update_run_impacted_is_overwritten_witness :
    (update_run unionScenarioStore "u".toList "src".toList "main".toList
        ["src/pkgB/b.py".toList] ["src/pkgA/a1.py".toList]
        [⟨"src/pkgB/b.py".toList, "s3b".toList⟩] [] 9).2 =
      (save_file_summaries
        (handle_update unionScenarioStore "u".toList ["src/pkgB/b.py".toList]
          ["src/pkgA/a1.py".toList] 9).1
        "u".toList "src".toList "main".toList ["src/pkgB/b.py".toList]
        [⟨"src/pkgB/b.py".toList, "s3b".toList⟩] 9).packagesImpacted.toFinset :=
  ((update_run_impacted_is_overwritten unionScenarioStore
      (handle_update unionScenarioStore "u".toList ["src/pkgB/b.py".toList]
        ["src/pkgA/a1.py".toList] 9).1
      "u".toList "src".toList "main".toList
      ["src/pkgB/b.py".toList] ["src/pkgA/a1.py".toList]
      [⟨"src/pkgB/b.py".toList, "s3b".toList⟩] [] 9 1 {1}
      (by decide)).1 (by decide)).1

/-- The inserted per-file line `# {filepath}` is a level-1 heading. -/
theorem fileHeading_leadingHashes (p : Str) : leadingHashes (['#', ' '] ++ p) = 1 := by
  simp [leadingHashes, List.takeWhile]

theorem fileHeading_isHeading (p : Str) : isHeadingLine (['#', ' '] ++ p) = true := by
  unfold isHeadingLine
  rw [fileHeading_leadingHashes]
  simp [isSpaceChar]

/-- The leading hash run of `'#' * n ++ ' ' :: rest` has length `n`. -/
theorem leadingHashes_replicate (n : Nat) (rest : Str) :
    leadingHashes (List.replicate n '#' ++ ' ' :: rest) = n := by
  induction n with
  | zero => simp [leadingHashes, List.takeWhile]
  | succ k ih =>
    rw [List.replicate_succ]
    simp only [leadingHashes, List.cons_append, List.takeWhile] at ih ⊢
    simp only [show (('#' == '#') : Bool) = true from rfl]
    simp [leadingHashes] at ih ⊢

/-- A heading line has a non-empty hash run. -/
theorem isHeading_pos (l : Str) (h : isHeadingLine l = true) : 0 < leadingHashes l := by
  unfold isHeadingLine at h
  rcases hd : l.drop (leadingHashes l) with _ | ⟨c, rest⟩
  · rw [hd] at h; cases h
  · rw [hd] at h
    exact of_decide_eq_true (Bool.and_elim_left h)

/-- After the +1 shift, no line of the shifted content is a level-1 heading. -/
theorem shifted_line_not_level_one (l : Str) :
    (isHeadingLine (shiftHeadingLine 1 l) && leadingHashes (shiftHeadingLine 1 l) == 1) = false := by
  by_cases h : isHeadingLine l = true
  · have hpos := isHeading_pos l h
    unfold shiftHeadingLine
    rw [if_pos h]
    rw [leadingHashes_replicate]
    have : (leadingHashes l + 1 == 1) = false := by
      have : leadingHashes l + 1 ≠ 1 := by omega
      simpa using this
    rw [this, Bool.and_false]
  · have hf : isHeadingLine l = false := Bool.eq_false_iff.mpr h
    unfold shiftHeadingLine
    rw [if_neg (by rw [hf]; exact Bool.false_ne_true), hf, Bool.false_and]

theorem splitOnChar_cons (sep c : Char) (rest : Str) :
    splitOnChar sep (c :: rest) =
      if c = sep then [] :: splitOnChar sep rest
      else (c :: (splitOnChar sep rest).headD []) :: (splitOnChar sep rest).tail := rfl

theorem splitOnChar_ne_nil (sep : Char) (s : Str) : splitOnChar sep s ≠ [] := by
  match s with
  | [] => simp [splitOnChar]
  | c :: rest =>
    rw [splitOnChar_cons]
    by_cases hc : c = sep <;> simp [hc]

/-- Splitting distributes over a separator between two halves. -/
theorem splitOnChar_append_sep (sep : Char) (a b : Str) :
    splitOnChar sep (a ++ sep :: b) = splitOnChar sep a ++ splitOnChar sep b := by
  induction a with
  | nil =>
    rw [List.nil_append, splitOnChar_cons, if_pos rfl]
    rfl
  | cons c a2 ih =>
    rw [List.cons_append, splitOnChar_cons sep c (a2 ++ sep :: b), splitOnChar_cons sep c a2]
    by_cases hc : c = sep
    · rw [if_pos hc, if_pos hc, ih]
      rfl
    · rcases hsplit : splitOnChar sep a2 with _ | ⟨h, t⟩
      · exact absurd hsplit (splitOnChar_ne_nil sep a2)
      · rw [if_neg hc, if_neg hc, ih, hsplit]
        rfl

/-- The common prefix of `l` and `l ++ m` is all of `l`. -/
theorem commonPrefixLen_self_append (l m : List Str) :
    commonPrefixLen l (l ++ m) = l.length := by
  induction l with
  | nil =>
    unfold commonPrefixLen
    rcases m with _ | ⟨x, xs⟩ <;> rfl
  | cons a as ih =>
    show commonPrefixLen (a :: as) (a :: (as ++ m)) = as.length + 1
    unfold commonPrefixLen
    rw [if_pos rfl, ih]

/-- Joining the split of a string with the same separator is the identity. -/
theorem intercalateChar_splitOnChar (sep : Char) (s : Str) :
    intercalateChar sep (splitOnChar sep s) = s := by
  induction s with
  | nil => rfl
  | cons c s2 ih =>
    rcases hsplit : splitOnChar sep s2 with _ | ⟨h, t⟩
    · exact absurd hsplit (splitOnChar_ne_nil sep s2)
    · rw [hsplit] at ih
      rw [splitOnChar_cons]
      by_cases hc : c = sep
      · subst hc
        rw [if_pos rfl, hsplit]
        rcases t with _ | ⟨t0, t1⟩
        · show c :: intercalateChar c [h] = c :: s2
          rw [show intercalateChar c [h] = h from rfl] at ih ⊢
          rw [ih]
        · show [] ++ c :: intercalateChar c (h :: t0 :: t1) = c :: s2
          rw [List.nil_append, ih]
      · rw [if_neg hc, hsplit]
        rcases t with _ | ⟨t0, t1⟩
        · show c :: h = c :: s2
          rw [show intercalateChar sep [h] = h from rfl] at ih
          rw [ih]
        · show (c :: h) ++ sep :: intercalateChar sep (t0 :: t1) = c :: s2
          rw [show intercalateChar sep (h :: t0 :: t1) =
              h ++ sep :: intercalateChar sep (t0 :: t1) from rfl] at ih
          rw [List.cons_append, ih]

/-- The first split segment is the run of characters before the separator. -/
theorem headD_splitOnChar (sep : Char) (s : Str) :
    (splitOnChar sep s).headD [] = s.takeWhile (fun c => c != sep) := by
  induction s with
  | nil => rfl
  | cons c s2 ih =>
    rw [splitOnChar_cons]
    by_cases hc : c = sep
    · rw [if_pos hc]
      simp [List.takeWhile, hc]
    · rw [if_neg hc]
      simp only [List.headD_cons, List.takeWhile]
      have : (c != sep) = true := by simp [hc]
      rw [this, ih]

/-- For a clean relative remainder, `relpath` strips exactly the source-root
half of the path. -/
theorem relpath_strips_source_root (src rest : Str)
    (hclean : ∀ c ∈ splitOnChar '/' rest, c ≠ [] ∧ c ≠ ['.']) :
    relpath (src ++ '/' :: rest) src = rest := by
  unfold relpath
  have hcomp : pathComponents (src ++ '/' :: rest) =
      pathComponents src ++ pathComponents rest := by
    unfold pathComponents
    rw [splitOnChar_append_sep, List.filter_append]
  have hrest : pathComponents rest = splitOnChar '/' rest := by
    unfold pathComponents
    rw [List.filter_eq_self]
    intro c hc
    rcases hclean c hc with ⟨h1, h2⟩
    simp [h1, h2]
  simp only [hcomp, hrest, commonPrefixLen_self_append, Nat.sub_self, List.replicate_zero,
    List.nil_append, List.drop_left]
  rw [if_neg (splitOnChar_ne_nil '/' rest)]
  exact intercalateChar_splitOnChar '/' rest

/-- C5 amended: the package-grouping function is a pure function of the path
and source root; for a path `src_root / rest` (with `rest` a normalized
relative path), it strips the source-root half, and if a separator remains in
the remainder the package name is the first remaining segment — otherwise it
is the sentinel `"base"` (not `"root"` as the claim stated). -/
theorem group_strips_root_and_takes_first_segment (src rest : Str)
    (hclean : ∀ c ∈ splitOnChar '/' rest, c ≠ [] ∧ c ≠ ['.'] ∧ c ≠ ['.', '.']) :
    topLevelPackage (src ++ '/' :: rest) src =
      if rest.contains '/' then rest.takeWhile (fun c => c != '/') else "base".toList := by
  unfold topLevelPackage
  rw [relpath_strips_source_root src rest
    (fun c hc => ⟨(hclean c hc).1, (hclean c hc).2.1⟩)]
  by_cases hsep : rest.contains '/'
  · rw [if_pos hsep, if_pos hsep, headD_splitOnChar]
  · rw [if_neg hsep, if_neg hsep]

/-- C5 amended witness: `src/pkg/a.py` under root `src` groups into `pkg`. -/
theorem group_strips_root_witness :
    topLevelPackage ("src".toList ++ '/' :: "pkg/a.py".toList) "src".toList =
      (if ("pkg/a.py".toList).contains '/'
       then ("pkg/a.py".toList).takeWhile (fun c => c != '/')
       else "base".toList) :=
  group_strips_root_and_takes_first_segment "src".toList "pkg/a.py".toList (by decide)

/-- Splitting a string that contains no separator yields the single segment. -/
theorem splitOnChar_no_sep (sep : Char) (l : Str) (h : ∀ c ∈ l, c ≠ sep) :
    splitOnChar sep l = [l] := by
  induction l with
  | nil => rfl
  | cons c rest ih =>
    rw [splitOnChar_cons, if_neg (h c (List.mem_cons_self c rest)),
      ih (fun x hx => h x (List.mem_cons_of_mem c hx))]
    rfl

/-- The head of a non-empty `dropWhile` result fails the predicate. -/
theorem dropWhile_head_neg {α : Type} (p : α → Bool) (l : List α) (c : α) (r : List α)
    (h : l.dropWhile p = c :: r) : p c = false := by
  induction l with
  | nil => cases h
  | cons x xs ih =>
    rw [List.dropWhile_cons] at h
    by_cases hx : p x = true
    · rw [if_pos hx] at h
      exact ih h
    · rw [if_neg hx] at h
      cases h
      exact Bool.eq_false_iff.mpr hx

/-- Decomposition of a matching position: a non-empty hash run followed by a
whitespace character. -/
theorem isHeading_parts (l : Str) (h : isHeadingLine l = true) :
    0 < leadingHashes l ∧
      ∃ c r, l.drop (leadingHashes l) = c :: r ∧ isSpaceChar c = true := by
  unfold isHeadingLine at h
  rcases hd : l.drop (leadingHashes l) with _ | ⟨c, r⟩
  · rw [hd] at h
    cases h
  · rw [hd] at h
    exact ⟨of_decide_eq_true (Bool.and_elim_left h), c, r, rfl, Bool.and_elim_right h⟩

/-- If the hash run ends strictly inside `l`, appending a suffix does not
change it. -/
theorem leadingHashes_append_of_stop (l b : Str) (h : l.drop (leadingHashes l) ≠ []) :
    leadingHashes (l ++ b) = leadingHashes l := by
  have hlt : leadingHashes l < l.length := by
    rcases Nat.lt_or_ge (leadingHashes l) l.length with h1 | h1
    · exact h1
    · exact absurd (List.drop_eq_nil_of_le h1) h
  unfold leadingHashes at hlt ⊢
  rw [List.takeWhile_append, if_neg (Nat.ne_of_lt hlt)]

/-- Under the same condition, the remainder after the hash run of `l ++ b` is
the remainder of `l` followed by `b`. -/
theorem drop_leadingHashes_append (l b : Str) (h : l.drop (leadingHashes l) ≠ []) :
    (l ++ b).drop (leadingHashes (l ++ b)) = l.drop (leadingHashes l) ++ b := by
  rw [leadingHashes_append_of_stop l b h]
  have hle : leadingHashes l ≤ l.length := by
    unfold leadingHashes
    exact (List.takeWhile_sublist _).length_le
  exact List.drop_append_of_le_length hle

/-- A position with no leading hashes is not a match position. -/
theorem isHeadingLine_of_hashes_zero (s : Str) (h : leadingHashes s = 0) :
    isHeadingLine s = false := by
  unfold isHeadingLine
  rcases hd : s.drop (leadingHashes s) with _ | ⟨c, r⟩
  · rfl
  · show (decide (0 < leadingHashes s) && isSpaceChar c) = false
    rw [h]
    simp

/-- Appending a newline-led suffix to a hashless line keeps the hash run
empty. -/
theorem leadingHashes_append_newline_zero (l t : Str) (h : leadingHashes l = 0) :
    leadingHashes (l ++ '\n' :: t) = 0 := by
  cases l with
  | nil =>
    simp [leadingHashes]
  | cons c l2 =>
    unfold leadingHashes at h ⊢
    rcases hb : ((c == '#') : Bool) with _ | _
    · rw [List.cons_append, List.takeWhile_cons, hb]
      rfl
    · rw [List.takeWhile_cons, hb] at h
      simp at h

/-- A match position stays a match position under any appended suffix. -/
theorem isHeadingLine_append_of_true (l b : Str) (hl : isHeadingLine l = true) :
    isHeadingLine (l ++ b) = true := by
  obtain ⟨hp, c, r, hd, hsp⟩ := isHeading_parts l hl
  have hne : l.drop (leadingHashes l) ≠ [] := by
    rw [hd]
    simp
  unfold isHeadingLine
  rw [drop_leadingHashes_append l b hne, hd, List.cons_append,
    leadingHashes_append_of_stop l b hne]
  show (decide (0 < leadingHashes l) && isSpaceChar c) = true
  rw [decide_eq_true hp, hsp]
  rfl

/-- A safe non-match line stays a non-match position when the rest of the
document follows: safety rules out the bare-hash case where the regex's
whitespace class would absorb the newline. -/
theorem isHeadingLine_append_newline_false (l t : Str) (hl : isHeadingLine l = false)
    (hsafe : safeLine l = true) : isHeadingLine (l ++ '\n' :: t) = false := by
  by_cases h0 : leadingHashes l = 0
  · exact isHeadingLine_of_hashes_zero _ (leadingHashes_append_newline_zero l t h0)
  · have hp : 0 < leadingHashes l := Nat.pos_of_ne_zero h0
    have hall : ((l.drop (leadingHashes l)).all isSpaceChar) = false := by
      unfold safeLine at hsafe
      rw [decide_eq_true hp, Bool.true_and] at hsafe
      simpa using hsafe
    have hne : l.drop (leadingHashes l) ≠ [] := by
      intro hnil
      rw [hnil] at hall
      simp at hall
    rcases hd : l.drop (leadingHashes l) with _ | ⟨c, r⟩
    · exact absurd hd hne
    · have hc : isSpaceChar c = false := by
        unfold isHeadingLine at hl
        rw [hd] at hl
        have hl2 : (decide (0 < leadingHashes l) && isSpaceChar c) = false := hl
        rw [decide_eq_true hp, Bool.true_and] at hl2
        exact hl2
      unfold isHeadingLine
      rw [drop_leadingHashes_append l ('\n' :: t) hne, hd, List.cons_append,
        leadingHashes_append_of_stop l ('\n' :: t) hne]
      show (decide (0 < leadingHashes l) && isSpaceChar c) = false
      rw [hc, Bool.and_false]

/-- If no match starts at a position, the line at that position is not a
heading either. -/
theorem line_not_heading_of_global (s : Str) (h : isHeadingLine s = false) :
    isHeadingLine (s.takeWhile (fun c => c != '\n')) = false := by
  rcases hb : isHeadingLine (s.takeWhile (fun c => c != '\n')) with _ | _
  · rfl
  · have hs : s = s.takeWhile (fun c => c != '\n') ++ s.dropWhile (fun c => c != '\n') :=
      (List.takeWhile_append_dropWhile _ _).symm
    have := isHeadingLine_append_of_true _ (s.dropWhile (fun c => c != '\n')) hb
    rw [← hs] at this
    rw [this] at h
    cases h

/-- The rewritten chunk the scan emits contains no newline. -/
theorem chunk_no_newline (n : Nat) (ws : Str) :
    ∀ c ∈ List.replicate n '#' ++ ' ' :: ws.takeWhile (fun c => c != '\n'), c ≠ '\n' := by
  intro c hc
  rcases List.mem_append.mp hc with h1 | h1
  · rw [List.eq_of_mem_replicate h1]
    decide
  · rcases List.mem_cons.mp h1 with h2 | h2
    · rw [h2]
      decide
    · simpa using List.mem_takeWhile_imp h2

theorem shiftScanGo_nil (inc fuel : Nat) : shiftScanGo inc fuel [] = [] := by
  cases fuel <;> rfl

/-- Unfolding equation for one step of the scan on non-empty input. -/
theorem shiftScanGo_succ (inc fuel : Nat) (s : Str) (hs : s ≠ []) :
    shiftScanGo inc (fuel + 1) s =
      (if isHeadingLine s then
        List.replicate (leadingHashes s + inc) '#' ++
          ' ' :: ((s.drop (leadingHashes s)).dropWhile isSpaceChar).takeWhile
              (fun c => c != '\n') ++
          (match ((s.drop (leadingHashes s)).dropWhile isSpaceChar).dropWhile
              (fun c => c != '\n') with
           | [] => []
           | c :: rest2 => c :: shiftScanGo inc fuel rest2)
      else
        s.takeWhile (fun c => c != '\n') ++
          (match s.dropWhile (fun c => c != '\n') with
           | [] => []
           | c :: rest2 => c :: shiftScanGo inc fuel rest2)) := by
  cases s with
  | nil => exact absurd rfl hs
  | cons c s2 => rfl

/-- Scan step at a match position when more content follows the heading. -/
theorem shiftScanGo_heading_cons (inc fuel : Nat) (s : Str) (hs : s ≠ [])
    (hh : isHeadingLine s = true) (c1 : Char) (rest2 : Str)
    (ht : ((s.drop (leadingHashes s)).dropWhile isSpaceChar).dropWhile
        (fun c => c != '\n') = c1 :: rest2) :
    shiftScanGo inc (fuel + 1) s =
      List.replicate (leadingHashes s + inc) '#' ++
        ' ' :: ((s.drop (leadingHashes s)).dropWhile isSpaceChar).takeWhile
            (fun c => c != '\n') ++
        c1 :: shiftScanGo inc fuel rest2 := by
  rw [shiftScanGo_succ inc fuel s hs, if_pos hh, ht]

/-- Scan step at a match position that reaches the end of the content. -/
theorem shiftScanGo_heading_last (inc fuel : Nat) (s : Str) (hs : s ≠ [])
    (hh : isHeadingLine s = true)
    (ht : ((s.drop (leadingHashes s)).dropWhile isSpaceChar).dropWhile
        (fun c => c != '\n') = []) :
    shiftScanGo inc (fuel + 1) s =
      List.replicate (leadingHashes s + inc) '#' ++
        ' ' :: ((s.drop (leadingHashes s)).dropWhile isSpaceChar).takeWhile
            (fun c => c != '\n') := by
  rw [shiftScanGo_succ inc fuel s hs, if_pos hh, ht]
  simp

/-- Scan step at a non-match position when the line has a following newline. -/
theorem shiftScanGo_copy_cons (inc fuel : Nat) (s : Str) (hs : s ≠ [])
    (hh : isHeadingLine s = false) (c1 : Char) (rest2 : Str)
    (ht : s.dropWhile (fun c => c != '\n') = c1 :: rest2) :
    shiftScanGo inc (fuel + 1) s =
      s.takeWhile (fun c => c != '\n') ++ c1 :: shiftScanGo inc fuel rest2 := by
  rw [shiftScanGo_succ inc fuel s hs, if_neg (by rw [hh]; exact Bool.false_ne_true), ht]

/-- Scan step at a non-match position on the last line. -/
theorem shiftScanGo_copy_last (inc fuel : Nat) (s : Str) (hs : s ≠ [])
    (hh : isHeadingLine s = false)
    (ht : s.dropWhile (fun c => c != '\n') = []) :
    shiftScanGo inc (fuel + 1) s = s.takeWhile (fun c => c != '\n') := by
  rw [shiftScanGo_succ inc fuel s hs, if_neg (by rw [hh]; exact Bool.false_ne_true), ht]
  simp

/-- No line of the +1-shifted output is a level-1 heading: rewritten chunks
carry at least two hashes, and copied lines are non-headings. -/
theorem scanGo_no_level_one (fuel : Nat) :
    ∀ s : Str, s.length ≤ fuel →
      ∀ l ∈ splitOnChar '\n' (shiftScanGo 1 fuel s),
        (isHeadingLine l && (leadingHashes l == 1)) = false := by
  induction fuel with
  | zero =>
    intro s hs l hl
    have hnil : s = [] := List.length_eq_zero.mp (Nat.le_zero.mp hs)
    subst hnil
    rw [shiftScanGo_nil] at hl
    simp [splitOnChar] at hl
    subst hl
    rfl
  | succ fuel ih =>
    intro s hs l hl
    rcases hcase : s with _ | ⟨c0, s2⟩
    · subst hcase
      rw [shiftScanGo_nil] at hl
      simp [splitOnChar] at hl
      subst hl
      rfl
    · subst hcase
      have hne : (c0 :: s2 : Str) ≠ [] := by simp
      by_cases hh : isHeadingLine (c0 :: s2) = true
      · have hpos := isHeading_pos _ hh
        rcases htail : (((c0 :: s2).drop (leadingHashes (c0 :: s2))).dropWhile
            isSpaceChar).dropWhile (fun c => c != '\n') with _ | ⟨c1, rest2⟩
        · rw [shiftScanGo_heading_last 1 fuel (c0 :: s2) hne hh htail] at hl
          rw [splitOnChar_no_sep '\n' _ (chunk_no_newline _ _), List.mem_singleton] at hl
          subst hl
          rw [leadingHashes_replicate,
            show ((leadingHashes (c0 :: s2) + 1 == 1) : Bool) = false from by
              rw [beq_eq_false_iff_ne]
              omega,
            Bool.and_false]
        · have hc1 : c1 = '\n' := by
            simpa using dropWhile_head_neg _ _ _ _ htail
          subst hc1
          rw [shiftScanGo_heading_cons 1 fuel (c0 :: s2) hne hh '\n' rest2 htail,
            splitOnChar_append_sep] at hl
          rcases List.mem_append.mp hl with h1 | h1
          · rw [splitOnChar_no_sep '\n' _ (chunk_no_newline _ _),
              List.mem_singleton] at h1
            subst h1
            rw [leadingHashes_replicate,
              show ((leadingHashes (c0 :: s2) + 1 == 1) : Bool) = false from by
                rw [beq_eq_false_iff_ne]
                omega,
              Bool.and_false]
          · apply ih rest2 _ l h1
            have h1l : ('\n' :: rest2).length ≤
                (((c0 :: s2).drop (leadingHashes (c0 :: s2))).dropWhile isSpaceChar).length := by
              rw [← htail]
              exact (List.dropWhile_sublist _).length_le
            have h2l : (((c0 :: s2).drop (leadingHashes (c0 :: s2))).dropWhile
                isSpaceChar).length ≤ ((c0 :: s2).drop (leadingHashes (c0 :: s2))).length :=
              (List.dropWhile_sublist _).length_le
            rw [List.length_drop] at h2l
            rw [List.length_cons] at h2l hs
            rw [List.length_cons] at h1l
            omega
      · have hhf : isHeadingLine (c0 :: s2) = false := Bool.eq_false_iff.mpr hh
        have hline := line_not_heading_of_global (c0 :: s2) hhf
        rcases htail : (c0 :: s2).dropWhile (fun c => c != '\n') with _ | ⟨c1, rest2⟩
        · rw [shiftScanGo_copy_last 1 fuel (c0 :: s2) hne hhf htail] at hl
          rw [splitOnChar_no_sep '\n' _
              (fun x hx => by simpa using List.mem_takeWhile_imp hx),
            List.mem_singleton] at hl
          subst hl
          rw [hline, Bool.false_and]
        · have hc1 : c1 = '\n' := by
            simpa using dropWhile_head_neg _ _ _ _ htail
          subst hc1
          rw [shiftScanGo_copy_cons 1 fuel (c0 :: s2) hne hhf '\n' rest2 htail,
            splitOnChar_append_sep] at hl
          rcases List.mem_append.mp hl with h1 | h1
          · rw [splitOnChar_no_sep '\n' _
                (fun x hx => by simpa using List.mem_takeWhile_imp hx),
              List.mem_singleton] at h1
            subst h1
            rw [hline, Bool.false_and]
          · apply ih rest2 _ l h1
            have h1l : ('\n' :: rest2).length ≤ (c0 :: s2).length := by
              rw [← htail]
              exact (List.dropWhile_sublist _).length_le
            rw [List.length_cons] at h1l hs
            rw [List.length_cons] at h1l
            omega

/-- Specialisation to the function as called: no line of
`shift_markdown_headings content 1` is a level-1 heading. -/
theorem shift_markdown_no_level_one (content : Str) :
    ∀ l ∈ splitOnChar '\n' (shift_markdown_headings content 1),
      (isHeadingLine l && (leadingHashes l == 1)) = false :=
  scanGo_no_level_one content.length content (Nat.le_refl _)

/-- On a single newline-free line the scan coincides with the per-line
rewrite. -/
theorem scanGo_single_line (l : Str) (hnl : ∀ c ∈ l, c ≠ '\n') :
    ∀ fuel, l.length ≤ fuel → shiftScanGo 1 fuel l = shiftHeadingLine 1 l := by
  intro fuel hfuel
  rcases hl0 : l with _ | ⟨c0, l2⟩
  · rw [shiftScanGo_nil]
    rfl
  · subst hl0
    rcases fuel with _ | fuel
    · rw [List.length_cons] at hfuel
      omega
    · have hne : (c0 :: l2 : Str) ≠ [] := by simp
      by_cases hh : isHeadingLine (c0 :: l2) = true
      · have hsubl : ∀ c ∈ ((c0 :: l2).drop (leadingHashes (c0 :: l2))).dropWhile isSpaceChar,
            c ≠ '\n' := fun c hc =>
          hnl c (List.drop_subset _ _ ((List.dropWhile_sublist _).subset hc))
        have ht : (((c0 :: l2).drop (leadingHashes (c0 :: l2))).dropWhile
            isSpaceChar).dropWhile (fun c => c != '\n') = [] := by
          rw [List.dropWhile_eq_nil_iff]
          intro x hx
          simpa using hsubl x hx
        rw [shiftScanGo_heading_last 1 fuel (c0 :: l2) hne hh ht]
        unfold shiftHeadingLine
        rw [if_pos hh,
          show (((c0 :: l2).drop (leadingHashes (c0 :: l2))).dropWhile
              isSpaceChar).takeWhile (fun c => c != '\n') =
            ((c0 :: l2).drop (leadingHashes (c0 :: l2))).dropWhile isSpaceChar from by
            rw [List.takeWhile_eq_self_iff]
            intro x hx
            simpa using hsubl x hx]
      · have hhf : isHeadingLine (c0 :: l2) = false := Bool.eq_false_iff.mpr hh
        have ht : (c0 :: l2).dropWhile (fun c => c != '\n') = [] := by
          rw [List.dropWhile_eq_nil_iff]
          intro x hx
          simpa using hnl x hx
        rw [shiftScanGo_copy_last 1 fuel (c0 :: l2) hne hhf ht]
        unfold shiftHeadingLine
        rw [if_neg (by rw [hhf]; exact Bool.false_ne_true)]
        rw [List.takeWhile_eq_self_iff]
        intro x hx
        simpa using hnl x hx

theorem intercalateChar_cons_cons (sep : Char) (a b : Str) (r : List Str) :
    intercalateChar sep (a :: b :: r) = a ++ sep :: intercalateChar sep (b :: r) := rfl

/-- On a document of newline-free, safe lines, the substitution scan acts
line by line. -/
theorem scanGo_eq_per_line (doc : List Str)
    (hdoc : ∀ l ∈ doc, (∀ c ∈ l, c ≠ '\n') ∧ safeLine l = true) :
    ∀ fuel, (intercalateChar '\n' doc).length ≤ fuel →
      shiftScanGo 1 fuel (intercalateChar '\n' doc) =
        intercalateChar '\n' (doc.map (shiftHeadingLine 1)) := by
  induction doc with
  | nil =>
    intro fuel hfuel
    rw [show intercalateChar '\n' ([] : List Str) = [] from rfl, shiftScanGo_nil]
    rfl
  | cons l rest ih =>
    rcases rest with _ | ⟨g, gs⟩
    · intro fuel hfuel
      exact scanGo_single_line l (hdoc l (by simp)).1 fuel hfuel
    · intro fuel hfuel
      obtain ⟨hnl, hsafe⟩ := hdoc l (by simp)
      rw [intercalateChar_cons_cons] at hfuel ⊢
      rw [List.length_append, List.length_cons] at hfuel
      rcases fuel with _ | fuel
      · omega
      · have hs : (l ++ '\n' :: intercalateChar '\n' (g :: gs) : Str) ≠ [] := by simp
        have hihlen : (intercalateChar '\n' (g :: gs)).length ≤ fuel := by omega
        have hih := ih (fun x hx => hdoc x (List.mem_cons_of_mem l hx)) fuel hihlen
        by_cases hh : isHeadingLine l = true
        · obtain ⟨hp, c, r, hd, hsp⟩ := isHeading_parts l hh
          have hne : l.drop (leadingHashes l) ≠ [] := by
            rw [hd]
            simp
          have hhg := isHeadingLine_append_of_true l
            ('\n' :: intercalateChar '\n' (g :: gs)) hh
          have hall : ((l.drop (leadingHashes l)).all isSpaceChar) = false := by
            unfold safeLine at hsafe
            rw [decide_eq_true hp, Bool.true_and] at hsafe
            simpa using hsafe
          have hXne : (l.drop (leadingHashes l)).dropWhile isSpaceChar ≠ [] := by
            intro hnil
            rw [List.dropWhile_eq_nil_iff] at hnil
            rw [List.all_eq_true.mpr hnil] at hall
            cases hall
          have hXsub : ∀ x ∈ (l.drop (leadingHashes l)).dropWhile isSpaceChar,
              ((x != '\n') : Bool) = true := fun x hx => by
            simpa using hnl x (List.drop_subset _ _ ((List.dropWhile_sublist _).subset hx))
          have hdropg : ((l ++ '\n' :: intercalateChar '\n' (g :: gs)).drop
              (leadingHashes (l ++ '\n' :: intercalateChar '\n' (g :: gs)))).dropWhile
              isSpaceChar =
              (l.drop (leadingHashes l)).dropWhile isSpaceChar ++
                '\n' :: intercalateChar '\n' (g :: gs) := by
            rw [drop_leadingHashes_append l _ hne, List.dropWhile_append,
              if_neg (by simpa using hXne)]
          have htg : (((l ++ '\n' :: intercalateChar '\n' (g :: gs)).drop
              (leadingHashes (l ++ '\n' :: intercalateChar '\n' (g :: gs)))).dropWhile
              isSpaceChar).dropWhile (fun c => c != '\n') =
              '\n' :: intercalateChar '\n' (g :: gs) := by
            rw [hdropg, List.dropWhile_append_of_pos hXsub,
              List.dropWhile_cons_of_neg (by simp)]
          rw [shiftScanGo_heading_cons 1 fuel _ hs hhg '\n' _ htg]
          rw [show (((l ++ '\n' :: intercalateChar '\n' (g :: gs)).drop
              (leadingHashes (l ++ '\n' :: intercalateChar '\n' (g :: gs)))).dropWhile
              isSpaceChar).takeWhile (fun c => c != '\n') =
              (l.drop (leadingHashes l)).dropWhile isSpaceChar from by
            rw [hdropg, List.takeWhile_append_of_pos hXsub,
              List.takeWhile_cons_of_neg (by simp), List.append_nil]]
          rw [leadingHashes_append_of_stop l _ hne, hih]
          conv_rhs => rw [List.map_cons, List.map_cons, intercalateChar_cons_cons,
            ← List.map_cons]
          rw [show shiftHeadingLine 1 l =
              List.replicate (leadingHashes l + 1) '#' ++
                ' ' :: (l.drop (leadingHashes l)).dropWhile isSpaceChar from by
            unfold shiftHeadingLine
            rw [if_pos hh]]
        · have hhf : isHeadingLine l = false := Bool.eq_false_iff.mpr hh
          have hpl : ∀ x ∈ l, ((x != '\n') : Bool) = true := fun x hx => by
            simpa using hnl x hx
          have hhg := isHeadingLine_append_newline_false l
            (intercalateChar '\n' (g :: gs)) hhf hsafe
          have htg : (l ++ '\n' :: intercalateChar '\n' (g :: gs)).dropWhile
              (fun c => c != '\n') = '\n' :: intercalateChar '\n' (g :: gs) := by
            rw [List.dropWhile_append_of_pos hpl, List.dropWhile_cons_of_neg (by simp)]
          rw [shiftScanGo_copy_cons 1 fuel _ hs hhg '\n' _ htg]
          rw [show (l ++ '\n' :: intercalateChar '\n' (g :: gs)).takeWhile
              (fun c => c != '\n') = l from by
            rw [List.takeWhile_append_of_pos hpl,
              List.takeWhile_cons_of_neg (by simp), List.append_nil]]
          rw [hih]
          conv_rhs => rw [List.map_cons, List.map_cons, intercalateChar_cons_cons,
            ← List.map_cons]
          rw [show shiftHeadingLine 1 l = l from by
            unfold shiftHeadingLine
            rw [if_neg (by rw [hhf]; exact Bool.false_ne_true)]]

theorem levelOneHeadings_append (a b : List Str) :
    levelOneHeadings (a ++ b) = levelOneHeadings a ++ levelOneHeadings b :=
  List.filter_append _ _

theorem levelOneHeadings_nil_cons (b : List Str) :
    levelOneHeadings ([] :: b) = levelOneHeadings b := by
  unfold levelOneHeadings
  rw [List.filter_cons]
  rfl

/-- The level-1 headings among the lines of one file section are exactly the
inserted `# {filepath}` line: the shifted summary contributes none. -/
theorem levelOneHeadings_fileSection (p summ : Str) (hp : ∀ c ∈ p, c ≠ '\n') :
    levelOneHeadings (splitOnChar '\n' (fileSection p summ)) = [['#', ' '] ++ p] := by
  unfold fileSection
  rw [splitOnChar_append_sep,
    splitOnChar_no_sep '\n' (['#', ' '] ++ p) (by
      intro c hc
      rcases List.mem_append.mp hc with h | h
      · rcases List.mem_cons.mp h with h2 | h2
        · rw [h2]
          decide
        · rw [List.mem_singleton.mp h2]
          decide
      · exact hp c h),
    levelOneHeadings_append]
  have h2 : levelOneHeadings (splitOnChar '\n' (shift_markdown_headings summ 1)) = [] := by
    unfold levelOneHeadings
    rw [List.filter_eq_nil_iff]
    intro a ha
    rw [shift_markdown_no_level_one summ a ha]
    exact Bool.false_ne_true
  rw [h2, List.append_nil]
  unfold levelOneHeadings
  rw [List.filter_cons,
    if_pos (by rw [fileHeading_isHeading, fileHeading_leadingHashes]; rfl)]
  rfl

/-- The level-1 headings of the whole assembled package document are exactly
the `# {filepath}` lines, in order. -/
theorem levelOneHeadings_assembled (files : List (Str × Str))
    (hp : ∀ f ∈ files, ∀ c ∈ f.1, c ≠ '\n') :
    levelOneHeadings (splitOnChar '\n' (assemblePackageDocument files)) =
      files.map (fun f => ['#', ' '] ++ f.1) := by
  induction files with
  | nil => rfl
  | cons f rest ih =>
    rcases rest with _ | ⟨g, gs⟩
    · exact levelOneHeadings_fileSection f.1 f.2 (hp f (by simp))
    · show levelOneHeadings (splitOnChar '\n' (fileSection f.1 f.2 ++
        '\n' :: '\n' :: assemblePackageDocument (g :: gs))) = _
      rw [splitOnChar_append_sep, show splitOnChar '\n'
          ('\n' :: assemblePackageDocument (g :: gs)) =
          [] :: splitOnChar '\n' (assemblePackageDocument (g :: gs)) from by
        rw [splitOnChar_cons, if_pos rfl],
        levelOneHeadings_append, levelOneHeadings_nil_cons,
        levelOneHeadings_fileSection f.1 f.2 (hp f (by simp)),
        ih (fun x hx => hp x (List.mem_cons_of_mem f hx))]
      rfl

/-- C8 counterexample: the claim that non-heading lines pass through the
shift unchanged is false of the program.  On `"##\nHello"` the regex matches
with `(#+) = "##"` and `\s+` spanning the newline (Python's `\s` includes
`'\n'`), so the non-heading line `"Hello"` is absorbed into the rewritten
heading: the output is `"### Hello"` and `"Hello"` is no longer a line of
the result. -/
theorem heading_shift_merges_lines :
    shift_markdown_headings "##\nHello".toList 1 = "### Hello".toList
    ∧ isHeadingLine "Hello".toList = false
    ∧ "Hello".toList ∈ splitOnChar '\n' "##\nHello".toList
    ∧ "Hello".toList ∉ splitOnChar '\n' (shift_markdown_headings "##\nHello".toList 1) := by
  decide

/-- C8 (corrected): `shift_markdown_headings` increments heading levels via
`re.sub(r'^(#+)\s+(.*)$', ..., flags=re.MULTILINE)`, and prefixing each file
summary with the level-1 line `# {filepath}` lets the Package Summarizer
recover per-file boundaries: the level-1 headings of the assembled document
are exactly the `# {filepath}` lines (first conjunct, with no assumption on
the summaries).  But the claim that non-heading lines are unchanged holds
only line-by-line on documents whose lines are "safe" — a bare hash run
followed by nothing or only whitespace makes `\s+` span the newline and
absorb the next line (see the counterexample).  On safe newline-free lines
the substitution acts per line (second conjunct), and a non-matching line is
left unchanged by the per-line rewrite (third conjunct). -/
theorem heading_shift_round_trip_amended :
    (∀ files : List (Str × Str), (∀ f ∈ files, ∀ c ∈ f.1, c ≠ '\n') →
      levelOneHeadings (splitOnChar '\n' (assemblePackageDocument files)) =
        files.map (fun f => ['#', ' '] ++ f.1))
    ∧ (∀ doc : List Str, (∀ l ∈ doc, (∀ c ∈ l, c ≠ '\n') ∧ safeLine l = true) →
      shift_markdown_headings (intercalateChar '\n' doc) 1 =
        intercalateChar '\n' (doc.map (shiftHeadingLine 1)))
    ∧ (∀ l : Str, isHeadingLine l = false → shiftHeadingLine 1 l = l) :=
  ⟨fun files h => levelOneHeadings_assembled files h,
   fun doc h => scanGo_eq_per_line doc h _ (Nat.le_refl _),
   fun l h => by
     unfold shiftHeadingLine
     rw [if_neg (by rw [h]; exact Bool.false_ne_true)]⟩

/-- C8 witness: the amended theorem evaluated on a concrete two-file package
document and a concrete safe two-line summary. -/
theorem heading_shift_round_trip_amended_witness :
    levelOneHeadings (splitOnChar '\n' (assemblePackageDocument
        [("a.py".toList, "# A\ndetails".toList), ("b.py".toList, "## B".toList)])) =
      [("a.py".toList, "# A\ndetails".toList), ("b.py".toList, "## B".toList)].map
        (fun f => ['#', ' '] ++ f.1)
    ∧ shift_markdown_headings (intercalateChar '\n' ["# T".toList, "body".toList]) 1 =
        intercalateChar '\n' (["# T".toList, "body".toList].map (shiftHeadingLine 1))
    ∧ shiftHeadingLine 1 "plain".toList = "plain".toList :=
  ⟨heading_shift_round_trip_amended.1 _ (by decide),
   heading_shift_round_trip_amended.2.1 _ (by decide),
   heading_shift_round_trip_amended.2.2 _ (by decide)⟩

/-- A file upsert never loses a `(repo_id, package_id)` reference already
present. -/
theorem upsertFileRow_preserves_ref (fs : List FileRow) (rid pid : Nat) (path summ : Str)
    (now a b : Nat) (h : ∃ f ∈ fs, f.repoId = a ∧ f.packageId = b) :
    ∃ f ∈ upsertFileRow fs rid pid path summ now, f.repoId = a ∧ f.packageId = b := by
  rcases h with ⟨f, hf, h1, h2⟩
  unfold upsertFileRow
  by_cases hc : fs.any (fun f => f.repoId == rid && f.packageId == pid && f.filePath == path) = true
  · rw [if_pos hc]
    refine ⟨_, List.mem_map_of_mem _ hf, ?_⟩
    by_cases hcf : (f.repoId == rid && f.packageId == pid && f.filePath == path) = true
    · rw [if_pos hcf]
      exact ⟨h1, h2⟩
    · rw [if_neg hcf]
      exact ⟨h1, h2⟩
  · rw [if_neg hc]
    exact ⟨f, List.mem_append_left _ hf, h1, h2⟩

/-- A file upsert leaves behind a row carrying its own
`(repo_id, package_id)`. -/
theorem upsertFileRow_establishes_ref (fs : List FileRow) (rid pid : Nat) (path summ : Str)
    (now : Nat) :
    ∃ f ∈ upsertFileRow fs rid pid path summ now, f.repoId = rid ∧ f.packageId = pid := by
  unfold upsertFileRow
  by_cases hc : fs.any (fun f => f.repoId == rid && f.packageId == pid && f.filePath == path) = true
  · rw [if_pos hc]
    rcases List.any_eq_true.mp hc with ⟨f, hf, hpred⟩
    refine ⟨_, List.mem_map_of_mem _ hf, ?_⟩
    rw [if_pos hpred]
    have h1 : f.repoId = rid := by
      have := Bool.and_elim_left (Bool.and_elim_left hpred)
      exact eq_of_beq this
    have h2 : f.packageId = pid := by
      have := Bool.and_elim_right (Bool.and_elim_left hpred)
      exact eq_of_beq this
    exact ⟨h1, h2⟩
  · rw [if_neg hc]
    exact ⟨_, List.mem_append_right _ (List.mem_singleton_self _), rfl, rfl⟩

/-- The per-group file-summary fold never loses a `(repo_id, package_id)`
reference. -/
theorem fileFold_preserves_ref (sums : List FileSummary) (fs : List FileRow)
    (rid pid : Nat) (fileList : List Str) (now a b : Nat)
    (h : ∃ f ∈ fs, f.repoId = a ∧ f.packageId = b) :
    ∃ f ∈ sums.foldl
      (fun fs2 fsum =>
        if fileList.contains fsum.filepath
        then upsertFileRow fs2 rid pid fsum.filepath fsum.summary now
        else fs2) fs, f.repoId = a ∧ f.packageId = b := by
  induction sums generalizing fs with
  | nil => exact h
  | cons fsum rest ih =>
    rw [List.foldl_cons]
    apply ih
    by_cases hc : fileList.contains fsum.filepath = true
    · rw [if_pos hc]
      exact upsertFileRow_preserves_ref fs rid pid fsum.filepath fsum.summary now a b h
    · rw [if_neg hc]
      exact h

/-- If some summary of the run lands in the group's file list, the per-group
fold leaves a row referencing the group's package. -/
theorem fileFold_establishes_ref (sums : List FileSummary) (fs : List FileRow)
    (rid pid : Nat) (fileList : List Str) (now : Nat)
    (hcov : ∃ fsum ∈ sums, fsum.filepath ∈ fileList) :
    ∃ f ∈ sums.foldl
      (fun fs2 fsum =>
        if fileList.contains fsum.filepath
        then upsertFileRow fs2 rid pid fsum.filepath fsum.summary now
        else fs2) fs, f.repoId = rid ∧ f.packageId = pid := by
  induction sums generalizing fs with
  | nil =>
    rcases hcov with ⟨fsum, hmem, _⟩
    cases hmem
  | cons fsum0 rest ih =>
    rw [List.foldl_cons]
    rcases hcov with ⟨fsum, hmem, hin⟩
    rcases List.mem_cons.mp hmem with heq | htail
    · subst heq
      have hc : fileList.contains fsum.filepath = true := by
        rw [List.contains_eq_any_beq, List.any_eq_true]
        exact ⟨fsum.filepath, hin, by simp⟩
      rw [if_pos hc]
      exact fileFold_preserves_ref rest _ rid pid fileList now rid pid
        (upsertFileRow_establishes_ref fs rid pid fsum.filepath fsum.summary now)
    · exact ih _ ⟨fsum, htail, hin⟩

/-- `processPackageGroup` keeps every package referenced by a file row,
provided the group contains at least one summarized file. -/
theorem processPackageGroup_orphanFree (repoId : Nat) (sums : List FileSummary) (now : Nat)
    (acc : Store × List Nat) (grp : Str × List Str)
    (hacc : ∀ p ∈ acc.1.packages, ∃ f ∈ acc.1.files,
      f.repoId = p.repoId ∧ f.packageId = p.packageId)
    (hcov : ∃ fsum ∈ sums, fsum.filepath ∈ grp.2) :
    ∀ p ∈ (processPackageGroup repoId sums now acc grp).1.packages,
      ∃ f ∈ (processPackageGroup repoId sums now acc grp).1.files,
        f.repoId = p.repoId ∧ f.packageId = p.packageId := by
  unfold processPackageGroup
  rcases hfind : acc.1.packages.find?
      (fun p => p.repoId == repoId && p.packageName == grp.1) with _ | ⟨p0⟩
  · simp only [hfind]
    intro p hp
    rcases List.mem_append.mp hp with hold | hnew
    · exact fileFold_preserves_ref sums _ repoId _ grp.2 now p.repoId p.packageId (hacc p hold)
    · rcases List.mem_singleton.mp hnew with rfl
      exact fileFold_establishes_ref sums _ repoId _ grp.2 now hcov
  · simp only [hfind]
    intro p hp
    exact fileFold_preserves_ref sums _ repoId _ grp.2 now p.repoId p.packageId (hacc p hp)

/-- The fold over the package groups keeps the store orphan-free when every
group holds a summarized file. -/
theorem groupFold_orphanFree (groups : List (Str × List Str)) (repoId : Nat)
    (sums : List FileSummary) (now : Nat) (acc : Store × List Nat)
    (hacc : ∀ p ∈ acc.1.packages, ∃ f ∈ acc.1.files,
      f.repoId = p.repoId ∧ f.packageId = p.packageId)
    (hcov : ∀ g ∈ groups, ∃ fsum ∈ sums, fsum.filepath ∈ g.2) :
    ∀ p ∈ (groups.foldl (processPackageGroup repoId sums now) acc).1.packages,
      ∃ f ∈ (groups.foldl (processPackageGroup repoId sums now) acc).1.files,
        f.repoId = p.repoId ∧ f.packageId = p.packageId := by
  induction groups generalizing acc with
  | nil => exact hacc
  | cons g rest ih =>
    rw [List.foldl_cons]
    exact ih _
      (processPackageGroup_orphanFree repoId sums now acc g hacc
        (hcov g (List.mem_cons_self g rest)))
      (fun g2 hg2 => hcov g2 (List.mem_cons_of_mem g hg2))

/-- The repository-resolution step of `save_file_summaries` does not touch
packages or files. -/
theorem save_file_summaries_resolve_fixed (s : Store) (url srcFolder branch : Str) (now : Nat) :
    ∃ s1 rid,
      (∀ filepaths fileSummaries,
        save_file_summaries s url srcFolder branch filepaths fileSummaries now =
          ⟨((group_by_top_level_packages filepaths srcFolder).foldl
              (processPackageGroup rid fileSummaries now) (s1, [])).1, rid,
            ((group_by_top_level_packages filepaths srcFolder).foldl
              (processPackageGroup rid fileSummaries now) (s1, [])).2⟩)
      ∧ s1.packages = s.packages ∧ s1.files = s.files := by
  unfold save_file_summaries
  rcases hfind : s.repositories.find?
      (fun r => r.url == url && r.srcPath == srcFolder && r.branch == branch) with _ | ⟨r⟩ <;>
    rw [hfind] <;>
    exact ⟨_, _, fun filepaths fileSummaries => rfl, rfl, rfl⟩

/-- `save_file_summaries` keeps the store orphan-free when every package
group of the run contains at least one summarized file. -/
theorem save_file_summaries_orphanFree (s : Store) (url srcFolder branch : Str)
    (filepaths : List Str) (fileSummaries : List FileSummary) (now : Nat)
    (h0 : orphanFree s)
    (hcov : ∀ g ∈ group_by_top_level_packages filepaths srcFolder,
      ∃ fsum ∈ fileSummaries, fsum.filepath ∈ g.2) :
    orphanFree (save_file_summaries s url srcFolder branch filepaths fileSummaries now).store := by
  rcases save_file_summaries_resolve_fixed s url srcFolder branch now with
    ⟨s1, rid, heq, hpkgs, hfiles⟩
  rw [heq filepaths fileSummaries]
  intro p hp
  exact groupFold_orphanFree (group_by_top_level_packages filepaths srcFolder) rid
    fileSummaries now (s1, [])
    (by rw [hpkgs, hfiles]; exact h0) hcov p hp

/-- Pruning in `handleDeletedFiles` keeps every surviving package referenced
by a surviving file row. -/
theorem handleDeletedFiles_orphanFree (s : Store) (rid : Nat) (deleted : List Str) (now : Nat)
    (h0 : orphanFree s) :
    ∀ p ∈ (handleDeletedFiles s rid deleted now).1,
      ∃ f ∈ (handleDeletedFiles s rid deleted now).2.1,
        f.repoId = p.repoId ∧ f.packageId = p.packageId := by
  intro p hp
  have hp2 : p ∈ (pkgsKeptAfterDelete s rid deleted).map
      (fun p => if p.repoId == rid &&
          decide (p.packageId ∈
            deletedTouched s rid deleted ∩ remainingAfterDelete s rid deleted)
        then { p with lastModifiedAt := now } else p) := hp
  rcases List.mem_map.mp hp2 with ⟨q, hq, hbump⟩
  have hqfields : p.repoId = q.repoId ∧ p.packageId = q.packageId := by
    subst hbump
    by_cases hcond : (q.repoId == rid &&
        decide (q.packageId ∈
          deletedTouched s rid deleted ∩ remainingAfterDelete s rid deleted)) = true
    · rw [if_pos hcond]; exact ⟨rfl, rfl⟩
    · rw [if_neg hcond]; exact ⟨rfl, rfl⟩
  have hqmem : q ∈ s.packages := List.mem_of_mem_filter hq
  have hqcond := List.of_mem_filter hq
  show ∃ f ∈ filesAfterDelete s rid deleted, f.repoId = p.repoId ∧ f.packageId = p.packageId
  rw [hqfields.1, hqfields.2]
  by_cases hrid : q.repoId = rid
  · -- the package is in this repository, so it is in the remaining set
    have hrem : q.packageId ∈ remainingAfterDelete s rid deleted := by
      rw [Bool.or_eq_true] at hqcond
      rcases hqcond with hleft | hright
      · exfalso
        rw [Bool.not_eq_eq_eq_not, Bool.not_true, beq_eq_false_iff_ne] at hleft
        exact hleft hrid
      · exact of_decide_eq_true hright
    unfold remainingAfterDelete at hrem
    rw [List.mem_toFinset] at hrem
    rcases List.mem_map.mp hrem with ⟨f, hf, hfid⟩
    have hfmem : f ∈ filesAfterDelete s rid deleted := List.mem_of_mem_filter hf
    have hfrid : f.repoId = rid := by
      have := List.of_mem_filter hf
      exact eq_of_beq this
    exact ⟨f, hfmem, by rw [hfrid, hrid], hfid⟩
  · -- the package belongs to another repository; its file row is untouched
    rcases h0 q hqmem with ⟨f, hf, hf1, hf2⟩
    refine ⟨f, ?_, hf1, hf2⟩
    unfold filesAfterDelete
    apply List.mem_filter.mpr
    refine ⟨hf, ?_⟩
    have : (f.repoId == rid) = false := by
      rw [beq_eq_false_iff_ne, hf1]
      exact hrid
    rw [this, Bool.false_and, Bool.not_false]

/-- `handle_update` always leaves the store orphan-free: deleting files
prunes the packages that lost their last file. -/
theorem handle_update_orphanFree (s : Store) (url : Str) (modified deleted : List Str)
    (now : Nat) (h0 : orphanFree s) :
    orphanFree (handle_update s url modified deleted now).1 := by
  unfold handle_update
  rcases hfind : s.repositories.find? (fun r => r.url == url) with _ | ⟨repo⟩
  · rw [hfind]
    exact h0
  · rw [hfind]
    by_cases hdel : deleted.isEmpty = true
    · simp only [hdel, if_true]
      exact h0
    · simp only [hdel, Bool.false_eq_true, if_false]
      intro p hp
      exact handleDeletedFiles_orphanFree s repo.repoId deleted now h0 p hp

/-- `save_package_summaries` only rewrites summary text and timestamps, so it
keeps the store orphan-free. -/
theorem save_package_summaries_orphanFree (s : Store) (repoId : Nat)
    (pkgSummaries : List (Nat × Str)) (now : Nat) (h0 : orphanFree s) :
    orphanFree (save_package_summaries s repoId pkgSummaries now) := by
  intro p hp
  have hp2 : p ∈ pkgSummaries.foldl
      (fun ps psum => ps.map
        (fun p => if p.repoId == repoId && p.packageId == psum.1
                  then { p with summary := some psum.2, lastModifiedAt := now } else p))
      s.packages := hp
  clear hp
  have main : ∀ (psums : List (Nat × Str)) (ps : List PackageRow),
      (∀ q ∈ ps, ∃ f ∈ s.files, f.repoId = q.repoId ∧ f.packageId = q.packageId) →
      ∀ q ∈ psums.foldl
        (fun ps psum => ps.map
          (fun p => if p.repoId == repoId && p.packageId == psum.1
                    then { p with summary := some psum.2, lastModifiedAt := now } else p)) ps,
        ∃ f ∈ s.files, f.repoId = q.repoId ∧ f.packageId = q.packageId := by
    intro psums
    induction psums with
    | nil => intro ps hps q hq; exact hps q hq
    | cons psum rest ih =>
      intro ps hps q hq
      rw [List.foldl_cons] at hq
      refine ih _ ?_ q hq
      intro q2 hq2
      rcases List.mem_map.mp hq2 with ⟨q3, hq3, hbump⟩
      have : q2.repoId = q3.repoId ∧ q2.packageId = q3.packageId := by
        subst hbump
        by_cases hcond : (q3.repoId == repoId && q3.packageId == psum.1) = true
        · rw [if_pos hcond]; exact ⟨rfl, rfl⟩
        · rw [if_neg hcond]; exact ⟨rfl, rfl⟩
      rw [this.1, this.2]
      exact hps q3 hq3
  exact main pkgSummaries s.packages h0 p hp2

/-- C3 amended: the orphan-free invariant survives every completed build run
in which each package group of the run contains at least one file that
produced a summary — but a run containing a group whose every file had empty
or whitespace-only content (no summary) creates exactly such an orphan
Package row (see the counterexample), so the unconditional claim fails. -/
theorem orphan_free_preserved_for_covered_runs :
    (∀ (s : Store) (url srcFolder branch : Str) (filepaths : List Str)
       (fileSummaries : List FileSummary) (pkgSummaries : List (Nat × Str)) (now : Nat),
       orphanFree s →
       (∀ g ∈ group_by_top_level_packages filepaths srcFolder,
         ∃ fsum ∈ fileSummaries, fsum.filepath ∈ g.2) →
       orphanFree (onboard_run s url srcFolder branch filepaths fileSummaries
         pkgSummaries now).1)
  ∧ (∀ (s : Store) (url srcFolder branch : Str) (modified deleted : List Str)
       (fileSummaries : List FileSummary) (pkgSummaries : List (Nat × Str)) (now : Nat),
       orphanFree s →
       (∀ g ∈ group_by_top_level_packages modified srcFolder,
         ∃ fsum ∈ fileSummaries, fsum.filepath ∈ g.2) →
       orphanFree (update_run s url srcFolder branch modified deleted fileSummaries
         pkgSummaries now).1) := by
  constructor
  · intro s url srcFolder branch filepaths fileSummaries pkgSummaries now h0 hcov
    unfold onboard_run
    by_cases hfp : filepaths = []
    · rw [if_pos hfp]
      exact h0
    · rw [if_neg hfp]
      exact save_package_summaries_orphanFree _ _ _ _
        (save_file_summaries_orphanFree s url srcFolder branch filepaths fileSummaries now
          h0 hcov)
  · intro s url srcFolder branch modified deleted fileSummaries pkgSummaries now h0 hcov
    have h1 : orphanFree (handle_update s url modified deleted now).1 :=
      handle_update_orphanFree s url modified deleted now h0
    unfold update_run
    unfold handle_update at h1 ⊢
    rcases hfind : s.repositories.find? (fun r => r.url == url) with _ | ⟨repo⟩ <;>
      rw [hfind] at h1 ⊢
    · exact h1
    · by_cases hfp : modified = []
      · simp only [hfp, if_true]
        by_cases hne : (if deleted.isEmpty = true
            then (s.packages, s.files, (∅ : Finset Nat))
            else handleDeletedFiles s repo.repoId deleted now).2.2 ≠ ∅
        · rw [if_pos hne]
          exact save_package_summaries_orphanFree _ _ _ _ h1
        · rw [if_neg hne]
          exact h1
      · simp only [hfp, if_false]
        exact save_package_summaries_orphanFree _ _ _ _
          (save_file_summaries_orphanFree _ url srcFolder branch modified fileSummaries now
            h1 hcov)

/-- C3 amended witness: onboarding one summarized file keeps the (initially
empty, hence orphan-free) store orphan-free. -/
theorem orphan_free_preserved_witness :
    orphanFree (onboard_run Store.empty "u".toList "src".toList "main".toList
      ["src/p/a.py".toList] [⟨"src/p/a.py".toList, "sm".toList⟩] [] 7).1 :=
  orphan_free_preserved_for_covered_runs.1 Store.empty "u".toList "src".toList "main".toList
    ["src/p/a.py".toList] [⟨"src/p/a.py".toList, "sm".toList⟩] [] 7
    (by decide) (by decide)

/-- C10: localizing for a repository key with no row in the repositories
relation makes the package-ranking stage raise (the `fetchone()` result is
subscripted without a presence check) instead of returning an empty or
degraded result. -/
theorem unonboarded_repo_lookup_raises (s : Store) (url srcFolder branch : Str)
    (rankPackages : List (Option Str) → List PackageSuggestion)
    (h : ∀ r ∈ s.repositories,
      ¬(r.url = url ∧ r.srcPath = srcFolder ∧ r.branch = branch)) :
    localize_packages s url srcFolder branch rankPackages =
      .error "TypeError: NoneType is not subscriptable".toList := by
  unfold localize_packages
  have hf : s.repositories.find?
      (fun r => r.url == url && r.srcPath == srcFolder && r.branch == branch) = none := by
    rw [List.find?_eq_none]
    intro r hr
    have := h r hr
    simp only [Bool.and_eq_true, beq_iff_eq]
    tauto
  rw [hf]

/-- C10 witness: the lookup on the empty store raises. -/
theorem unonboarded_repo_lookup_raises_witness :
    localize_packages Store.empty "u".toList "src".toList "main".toList rankPackagesPkgA =
      .error "TypeError: NoneType is not subscriptable".toList :=
  unonboarded_repo_lookup_raises Store.empty "u".toList "src".toList "main".toList
    rankPackagesPkgA (by simp [Store.empty])

/- ----------------------------------------------------------------------------
Generic list helpers for the uniqueness invariant (C9).
---------------------------------------------------------------------------- -/

/-- Mapping a key-preserving function over a list leaves the key projection
unchanged. -/
theorem map_key_of_preserving {α β : Type} (l : List α) (g : α → α) (key : α → β)
    (hg : ∀ x ∈ l, key (g x) = key x) : (l.map g).map key = l.map key := by
  induction l with
  | nil => rfl
  | cons x xs ih =>
    simp only [List.map_cons]
    rw [hg x (List.mem_cons_self x xs), ih (fun y hy => hg y (List.mem_cons_of_mem x hy))]

/-- The key projection of a filtered list is nodup when the original is. -/
theorem nodup_key_filter {α β : Type} (l : List α) (p : α → Bool) (key : α → β)
    (h : (l.map key).Nodup) : ((l.filter p).map key).Nodup :=
  List.Nodup.sublist (List.Sublist.map key (List.filter_sublist l)) h

/-- `srcOfRepos` is unchanged by a map that keeps `repo_id` and `src_path`. -/
theorem srcOfRepos_map_preserving (repos : List RepoRow) (g : RepoRow → RepoRow)
    (hg : ∀ r, (g r).repoId = r.repoId ∧ (g r).srcPath = r.srcPath) (x : Nat) :
    srcOfRepos (repos.map g) x = srcOfRepos repos x := by
  unfold srcOfRepos
  rw [List.find?_map]
  have hp : ((fun r => r.repoId == x) ∘ g) = (fun r => r.repoId == x) := by
    funext r
    simp only [Function.comp_apply, (hg r).1]
  rw [hp]
  rcases hf : repos.find? (fun r => r.repoId == x) with _ | ⟨r⟩ <;> rw [hf]
  · rfl
  · simp [Option.map, (hg r).2]

/-- `srcOfRepos` at a known repository id is unchanged by appending rows. -/
theorem srcOfRepos_append_known (repos new : List RepoRow) (x : Nat)
    (h : ∃ r ∈ repos, r.repoId = x) :
    srcOfRepos (repos ++ new) x = srcOfRepos repos x := by
  unfold srcOfRepos
  rw [List.find?_append]
  rcases hf : repos.find? (fun r => r.repoId == x) with _ | ⟨r⟩
  · exfalso
    rcases h with ⟨r, hr, hrid⟩
    rw [List.find?_eq_none] at hf
    exact hf r hr (by simp [hrid])
  · rw [hf]
    rfl

/-- With pairwise-distinct repository ids, `find?` by a member's id returns
that member. -/
theorem find?_repoId_of_mem (repos : List RepoRow) (r : RepoRow) (hmem : r ∈ repos)
    (hnd : (repos.map (·.repoId)).Nodup) :
    repos.find? (fun r2 => r2.repoId == r.repoId) = some r := by
  rcases hf : repos.find? (fun r2 => r2.repoId == r.repoId) with _ | ⟨r2⟩
  · exfalso
    rw [List.find?_eq_none] at hf
    exact hf r hmem (by simp)
  · have hbeq := @List.find?_some RepoRow (fun r2 => r2.repoId == r.repoId) r2 repos hf
    have hp : r2.repoId = r.repoId := eq_of_beq hbeq
    have hm2 : r2 ∈ repos := List.mem_of_find?_eq_some hf
    have heq2 := List.inj_on_of_nodup_map hnd hm2 hmem hp
    rw [hf, heq2]

/-- At a member's id (ids pairwise distinct), `srcOfRepos` reads that row's
`src_path`. -/
theorem srcOfRepos_of_mem (repos : List RepoRow) (r : RepoRow) (hmem : r ∈ repos)
    (hnd : (repos.map (·.repoId)).Nodup) :
    srcOfRepos repos r.repoId = r.srcPath := by
  unfold srcOfRepos
  rw [find?_repoId_of_mem repos r hmem hnd]
  rfl

/-- The in-place update branch of the upsert keeps every row's conflict
key. -/
theorem upsertFileRow_update_key (rid pid : Nat) (path summ : Str) (now : Nat) (f : FileRow) :
    fileKey (if f.repoId == rid && f.packageId == pid && f.filePath == path
             then { f with summary := summ, lastModifiedAt := now } else f) = fileKey f := by
  by_cases hc : (f.repoId == rid && f.packageId == pid && f.filePath == path) = true
  · rw [if_pos hc]; rfl
  · rw [if_neg hc]

/-- The file upsert keeps the conflict keys pairwise distinct. -/
theorem upsertFileRow_keys_nodup (fs : List FileRow) (rid pid : Nat) (path summ : Str)
    (now : Nat) (h : (fs.map fileKey).Nodup) :
    ((upsertFileRow fs rid pid path summ now).map fileKey).Nodup := by
  unfold upsertFileRow
  by_cases hc : fs.any (fun f => f.repoId == rid && f.packageId == pid && f.filePath == path) = true
  · rw [if_pos hc]
    rw [map_key_of_preserving fs _ fileKey
      (fun f _ => upsertFileRow_update_key rid pid path summ now f)]
    exact h
  · rw [if_neg hc]
    rw [List.map_append]
    rw [List.nodup_append]
    refine ⟨h, List.nodup_singleton _, ?_⟩
    intro k hk hk2
    rcases List.mem_map.mp hk with ⟨f, hf, hfk⟩
    have hkey : k = (rid, pid, path) := by
      rcases List.mem_singleton.mp hk2 with rfl
      rfl
    have hane := List.any_eq_false.mp (Bool.eq_false_iff.mpr hc) f hf
    apply hane
    have hkf : fileKey f = (rid, pid, path) := hfk.trans hkey
    have h1 : f.repoId = rid := congrArg Prod.fst hkf
    have h2 : f.packageId = pid := congrArg (fun x => x.2.1) hkf
    have h3 : f.filePath = path := congrArg (fun x => x.2.2) hkf
    simp [h1, h2, h3]

/-- The file upsert keeps every row linked, provided its own key is
linked. -/
theorem upsertFileRow_linked (fs : List FileRow) (repos1 : List RepoRow)
    (pkgs : List PackageRow) (rid pid : Nat) (path summ : Str) (now : Nat)
    (hall : ∀ f ∈ fs, LinkedKey repos1 pkgs (fileKey f))
    (hnew : LinkedKey repos1 pkgs (rid, pid, path)) :
    ∀ f ∈ upsertFileRow fs rid pid path summ now, LinkedKey repos1 pkgs (fileKey f) := by
  unfold upsertFileRow
  by_cases hc : fs.any (fun f => f.repoId == rid && f.packageId == pid && f.filePath == path) = true
  · rw [if_pos hc]
    intro f hf
    rcases List.mem_map.mp hf with ⟨f0, hf0, hfe⟩
    rw [← hfe, upsertFileRow_update_key]
    exact hall f0 hf0
  · rw [if_neg hc]
    intro f hf
    rcases List.mem_append.mp hf with hold | hnewmem
    · exact hall f hold
    · rcases List.mem_singleton.mp hnewmem with rfl
      exact hnew

/-- The file upsert keeps every row's repository known, provided its own
repository id is known. -/
theorem upsertFileRow_known (fs : List FileRow) (repos1 : List RepoRow)
    (rid pid : Nat) (path summ : Str) (now : Nat)
    (hall : ∀ f ∈ fs, ∃ r ∈ repos1, r.repoId = f.repoId)
    (hrid : ∃ r ∈ repos1, r.repoId = rid) :
    ∀ f ∈ upsertFileRow fs rid pid path summ now, ∃ r ∈ repos1, r.repoId = f.repoId := by
  unfold upsertFileRow
  by_cases hc : fs.any (fun f => f.repoId == rid && f.packageId == pid && f.filePath == path) = true
  · rw [if_pos hc]
    intro f hf
    rcases List.mem_map.mp hf with ⟨f0, hf0, hfe⟩
    have hk : fileKey f = fileKey f0 := by
      rw [← hfe, upsertFileRow_update_key]
    have : f.repoId = f0.repoId := congrArg Prod.fst hk
    rw [this]
    exact hall f0 hf0
  · rw [if_neg hc]
    intro f hf
    rcases List.mem_append.mp hf with hold | hnewmem
    · exact hall f hold
    · rcases List.mem_singleton.mp hnewmem with rfl
      exact hrid

/-- The per-group fold over the run's file summaries keeps the conflict keys
pairwise distinct. -/
theorem fileFold_keys_nodup (sums : List FileSummary) (fs : List FileRow)
    (rid pid : Nat) (fileList : List Str) (now : Nat) (h : (fs.map fileKey).Nodup) :
    ((sums.foldl
      (fun fs2 fsum =>
        if fileList.contains fsum.filepath
        then upsertFileRow fs2 rid pid fsum.filepath fsum.summary now
        else fs2) fs).map fileKey).Nodup := by
  induction sums generalizing fs with
  | nil => exact h
  | cons fsum rest ih =>
    rw [List.foldl_cons]
    apply ih
    by_cases hc : fileList.contains fsum.filepath = true
    · rw [if_pos hc]
      exact upsertFileRow_keys_nodup fs rid pid fsum.filepath fsum.summary now h
    · rw [if_neg hc]
      exact h

/-- The per-group fold keeps every row linked, provided every path of the
group links to the group's package. -/
theorem fileFold_linked (sums : List FileSummary) (fs : List FileRow)
    (repos1 : List RepoRow) (pkgs : List PackageRow)
    (rid pid : Nat) (fileList : List Str) (now : Nat)
    (hall : ∀ f ∈ fs, LinkedKey repos1 pkgs (fileKey f))
    (hpaths : ∀ path ∈ fileList, LinkedKey repos1 pkgs (rid, pid, path)) :
    ∀ f ∈ sums.foldl
      (fun fs2 fsum =>
        if fileList.contains fsum.filepath
        then upsertFileRow fs2 rid pid fsum.filepath fsum.summary now
        else fs2) fs, LinkedKey repos1 pkgs (fileKey f) := by
  induction sums generalizing fs with
  | nil => exact hall
  | cons fsum rest ih =>
    rw [List.foldl_cons]
    apply ih
    by_cases hc : fileList.contains fsum.filepath = true
    · rw [if_pos hc]
      have hmem : fsum.filepath ∈ fileList := by
        rw [List.contains_eq_any_beq, List.any_eq_true] at hc
        rcases hc with ⟨x, hx, hbeq⟩
        rcases eq_of_beq hbeq with rfl
        exact hx
      exact upsertFileRow_linked fs repos1 pkgs rid pid fsum.filepath fsum.summary now
        hall (hpaths fsum.filepath hmem)
    · rw [if_neg hc]
      exact hall

/-- The per-group fold keeps every row's repository known. -/
theorem fileFold_known (sums : List FileSummary) (fs : List FileRow)
    (repos1 : List RepoRow) (rid pid : Nat) (fileList : List Str) (now : Nat)
    (hall : ∀ f ∈ fs, ∃ r ∈ repos1, r.repoId = f.repoId)
    (hrid : ∃ r ∈ repos1, r.repoId = rid) :
    ∀ f ∈ sums.foldl
      (fun fs2 fsum =>
        if fileList.contains fsum.filepath
        then upsertFileRow fs2 rid pid fsum.filepath fsum.summary now
        else fs2) fs, ∃ r ∈ repos1, r.repoId = f.repoId := by
  induction sums generalizing fs with
  | nil => exact hall
  | cons fsum rest ih =>
    rw [List.foldl_cons]
    apply ih
    by_cases hc : fileList.contains fsum.filepath = true
    · rw [if_pos hc]
      exact upsertFileRow_known fs repos1 rid pid fsum.filepath fsum.summary now hall hrid
    · rw [if_neg hc]
      exact hall

/-- `processPackageGroup` preserves the fold invariant, provided every path
of the group is named by the group and the group name matches the
repository's source folder. -/
theorem processPackageGroup_foldInv (repos1 : List RepoRow) (nrid1 rid : Nat)
    (sums : List FileSummary) (now : Nat) (acc : Store × List Nat) (grp : Str × List Str)
    (hinv : SaveFoldInv repos1 nrid1 rid acc)
    (hg : ∀ fp ∈ grp.2, topLevelPackage fp (srcOfRepos repos1 rid) = grp.1)
    (hrid : ∃ r ∈ repos1, r.repoId = rid) :
    SaveFoldInv repos1 nrid1 rid (processPackageGroup rid sums now acc grp) := by
  unfold processPackageGroup
  rcases hfind : acc.1.packages.find? (fun p => p.repoId == rid && p.packageName == grp.1)
    with _ | ⟨p0⟩
  · -- a fresh package row is inserted with id nextPackageId
    simp only [hfind]
    have hnone := List.find?_eq_none.mp hfind
    set newp : PackageRow :=
      { packageId := acc.1.nextPackageId, repoId := rid, packageName := grp.1,
        summary := none, createdAt := now, lastModifiedAt := now } with hnewp
    have hpkgs2 : ∀ q ∈ acc.1.packages ++ [newp], q ∈ acc.1.packages ∨ q = newp := by
      intro q hq
      rcases List.mem_append.mp hq with h | h
      · exact Or.inl h
      · exact Or.inr (List.mem_singleton.mp h)
    have hlinkmono : ∀ k, LinkedKey repos1 acc.1.packages k →
        LinkedKey repos1 (acc.1.packages ++ [newp]) k := by
      intro k hk
      rcases hk with ⟨p, hp, hps⟩
      exact ⟨p, List.mem_append_left _ hp, hps⟩
    have hnewlinked : ∀ path ∈ grp.2,
        LinkedKey repos1 (acc.1.packages ++ [newp]) (rid, newp.packageId, path) := by
      intro path hpath
      refine ⟨newp, List.mem_append_right _ (List.mem_singleton_self _), rfl, rfl, ?_⟩
      rw [hg path hpath]
    refine ⟨hinv.repos_eq, hinv.nextRepo_eq, ?_, ?_, ?_, ?_, ?_, ?_⟩
    · -- package business keys stay pairwise distinct
      rw [List.map_append, List.nodup_append]
      refine ⟨hinv.pkgKeys, List.nodup_singleton _, ?_⟩
      intro k hk hk2
      rcases List.mem_map.mp hk with ⟨p, hp, hpk⟩
      have hkeq : k = pkgKey newp := by
        rcases List.mem_singleton.mp hk2 with rfl
        rfl
      have hkp : pkgKey p = (rid, grp.1) := by rw [hpk, hkeq]; rfl
      have h1 : p.repoId = rid := congrArg Prod.fst hkp
      have h2 : p.packageName = grp.1 := congrArg Prod.snd hkp
      exact hnone p hp (by simp [h1, h2])
    · rw [List.map_append, List.nodup_append]
      refine ⟨hinv.pkgIds, List.nodup_singleton _, ?_⟩
      intro k hk hk2
      rcases List.mem_map.mp hk with ⟨p, hp, hpk⟩
      have hkeq : k = newp.packageId := by
        rcases List.mem_singleton.mp hk2 with rfl
        rfl
      have hnp : newp.packageId = acc.1.nextPackageId := rfl
      have := hinv.pkgBound p hp
      omega
    · intro p hp
      rcases hpkgs2 p hp with h | h
      · have := hinv.pkgBound p h
        show p.packageId < acc.1.nextPackageId + 1
        omega
      · rw [h]
        show newp.packageId < acc.1.nextPackageId + 1
        have hnp : newp.packageId = acc.1.nextPackageId := rfl
        omega
    · exact fileFold_keys_nodup sums _ rid newp.packageId grp.2 now hinv.fileKeys
    · exact fileFold_linked sums _ repos1 _ rid newp.packageId grp.2 now
        (fun f hf => hlinkmono (fileKey f) (hinv.linked f hf)) hnewlinked
    · exact fileFold_known sums _ repos1 rid newp.packageId grp.2 now hinv.known hrid
  · -- the existing package row is reused
    simp only [hfind]
    have hp0mem : p0 ∈ acc.1.packages := List.mem_of_find?_eq_some hfind
    have hp0pred := @List.find?_some PackageRow
      (fun p => p.repoId == rid && p.packageName == grp.1) p0 acc.1.packages hfind
    have hp0rid : p0.repoId = rid := eq_of_beq (Bool.and_elim_left hp0pred)
    have hp0name : p0.packageName = grp.1 := eq_of_beq (Bool.and_elim_right hp0pred)
    have hnewlinked : ∀ path ∈ grp.2,
        LinkedKey repos1 acc.1.packages (rid, p0.packageId, path) := by
      intro path hpath
      refine ⟨p0, hp0mem, hp0rid, rfl, ?_⟩
      rw [hp0name, hg path hpath]
    refine ⟨hinv.repos_eq, hinv.nextRepo_eq, hinv.pkgKeys, hinv.pkgIds, hinv.pkgBound, ?_, ?_, ?_⟩
    · exact fileFold_keys_nodup sums _ rid p0.packageId grp.2 now hinv.fileKeys
    · exact fileFold_linked sums _ repos1 _ rid p0.packageId grp.2 now hinv.linked hnewlinked
    · exact fileFold_known sums _ repos1 rid p0.packageId grp.2 now hinv.known hrid

/-- The fold over all package groups preserves the fold invariant. -/
theorem groupFold_foldInv (groups : List (Str × List Str)) (repos1 : List RepoRow)
    (nrid1 rid : Nat) (sums : List FileSummary) (now : Nat) (acc : Store × List Nat)
    (hinv : SaveFoldInv repos1 nrid1 rid acc)
    (hgs : ∀ g ∈ groups, ∀ fp ∈ g.2, topLevelPackage fp (srcOfRepos repos1 rid) = g.1)
    (hrid : ∃ r ∈ repos1, r.repoId = rid) :
    SaveFoldInv repos1 nrid1 rid (groups.foldl (processPackageGroup rid sums now) acc) := by
  induction groups generalizing acc with
  | nil => exact hinv
  | cons g rest ih =>
    rw [List.foldl_cons]
    exact ih _
      (processPackageGroup_foldInv repos1 nrid1 rid sums now acc g hinv
        (hgs g (List.mem_cons_self g rest)) hrid)
      (fun g2 hg2 => hgs g2 (List.mem_cons_of_mem g hg2))

/-- `insertGrouped` keeps the "every path of a group is named by the group"
property when the inserted path is named by its group. -/
theorem insertGrouped_names (srcF : Str) (acc : List (Str × List Str)) (fp : Str)
    (hacc : ∀ g ∈ acc, ∀ fp2 ∈ g.2, topLevelPackage fp2 srcF = g.1) :
    ∀ g ∈ insertGrouped (topLevelPackage fp srcF) fp acc,
      ∀ fp2 ∈ g.2, topLevelPackage fp2 srcF = g.1 := by
  induction acc with
  | nil =>
    intro g hg fp2 hfp2
    rcases List.mem_singleton.mp hg with rfl
    rcases List.mem_singleton.mp hfp2 with rfl
    rfl
  | cons kv rest ih =>
    unfold insertGrouped
    by_cases hk : kv.1 = topLevelPackage fp srcF
    · rw [show kv = (kv.1, kv.2) from rfl, if_pos hk]
      intro g hg fp2 hfp2
      rcases List.mem_cons.mp hg with rfl | hgr
      · rcases List.mem_append.mp hfp2 with hold | hnew
        · exact hacc kv (List.mem_cons_self kv rest) fp2 hold
        · rcases List.mem_singleton.mp hnew with rfl
          exact hk.symm
      · exact hacc g (List.mem_cons_of_mem kv hgr) fp2 hfp2
    · rw [show kv = (kv.1, kv.2) from rfl, if_neg hk]
      intro g hg fp2 hfp2
      rcases List.mem_cons.mp hg with rfl | hgr
      · exact hacc kv (List.mem_cons_self kv rest) fp2 hfp2
      · exact ih (fun g2 hg2 => hacc g2 (List.mem_cons_of_mem kv hg2)) g hgr fp2 hfp2

/-- Every path in a group of `group_by_top_level_packages` is named by the
group. -/
theorem group_by_top_level_packages_names (filepaths : List Str) (srcF : Str) :
    ∀ g ∈ group_by_top_level_packages filepaths srcF,
      ∀ fp ∈ g.2, topLevelPackage fp srcF = g.1 := by
  unfold group_by_top_level_packages
  have main : ∀ (fps : List Str) (acc : List (Str × List Str)),
      (∀ g ∈ acc, ∀ fp ∈ g.2, topLevelPackage fp srcF = g.1) →
      ∀ g ∈ fps.foldl (fun acc fp => insertGrouped (topLevelPackage fp srcF) fp acc) acc,
        ∀ fp ∈ g.2, topLevelPackage fp srcF = g.1 := by
    intro fps
    induction fps with
    | nil => intro acc hacc; exact hacc
    | cons fp rest ih =>
      intro acc hacc
      rw [List.foldl_cons]
      exact ih _ (insertGrouped_names srcF acc fp hacc)
  exact main filepaths [] (by intro g hg; cases hg)

/-- `save_file_summaries` preserves the store invariant. -/
theorem save_file_summaries_StoreInv (s : Store) (url srcFolder branch : Str)
    (filepaths : List Str) (fileSummaries : List FileSummary) (now : Nat)
    (hinv : StoreInv s) :
    StoreInv (save_file_summaries s url srcFolder branch filepaths fileSummaries now).store := by
  obtain ⟨hRid, hRbound, hPkeys, hPids, hPbound, hFkeys, hFlink, hFknown⟩ := hinv
  unfold save_file_summaries
  rcases hfind : s.repositories.find?
      (fun r => r.url == url && r.srcPath == srcFolder && r.branch == branch) with _ | ⟨r⟩ <;>
    rw [hfind] <;>
    simp only
  · -- repository inserted with a fresh id
    set newr : RepoRow :=
      { repoId := s.nextRepoId, url := url, srcPath := srcFolder, branch := branch,
        createdAt := now, lastModifiedAt := now } with hnewr
    set repos1 : List RepoRow := s.repositories ++ [newr] with hrepos1
    have hsrcStable : ∀ x, (∃ r2 ∈ s.repositories, r2.repoId = x) →
        srcOfRepos repos1 x = srcOfRepos s.repositories x := by
      intro x hx
      exact srcOfRepos_append_known s.repositories [newr] x hx
    have hRid1 : (repos1.map (·.repoId)).Nodup := by
      rw [hrepos1, List.map_append, List.nodup_append]
      refine ⟨hRid, List.nodup_singleton _, ?_⟩
      intro k hk hk2
      rcases List.mem_map.mp hk with ⟨r2, hr2, hrk⟩
      have hkeq : k = newr.repoId := by
        rcases List.mem_singleton.mp hk2 with rfl
        rfl
      have hnr : newr.repoId = s.nextRepoId := rfl
      have := hRbound r2 hr2
      omega
    have hsrcNew : srcOfRepos repos1 newr.repoId = srcFolder := by
      rw [hrepos1]
      have : srcOfRepos (s.repositories ++ [newr]) newr.repoId =
          srcOfRepos [newr] newr.repoId := by
        unfold srcOfRepos
        rw [List.find?_append]
        have hnone : s.repositories.find? (fun r2 => r2.repoId == newr.repoId) = none := by
          rw [List.find?_eq_none]
          intro r2 hr2
          have hnr : newr.repoId = s.nextRepoId := rfl
          have hb := hRbound r2 hr2
          intro hcontra
          have := eq_of_beq hcontra
          omega
        rw [hnone]
        rfl
      rw [this]
      unfold srcOfRepos
      simp [List.find?]
    have hfold := groupFold_foldInv (group_by_top_level_packages filepaths srcFolder)
      repos1 (s.nextRepoId + 1) newr.repoId fileSummaries now
      ({ s with repositories := repos1, nextRepoId := s.nextRepoId + 1 }, [])
      ⟨rfl, rfl, hPkeys, hPids, hPbound, hFkeys,
        (by
          intro f hf
          have hl := hFlink f hf
          rcases hl with ⟨p, hp, h1, h2, h3⟩
          refine ⟨p, hp, h1, h2, ?_⟩
          rw [h3]
          rw [hsrcStable (fileKey f).1 ?_]
          exact hFknown f hf),
        (fun f hf => by
          rcases hFknown f hf with ⟨r2, hr2, hr2e⟩
          exact ⟨r2, List.mem_append_left _ hr2, hr2e⟩)⟩
      (by
        rw [hsrcNew]
        exact group_by_top_level_packages_names filepaths srcFolder)
      ⟨newr, List.mem_append_right _ (List.mem_singleton_self _), rfl⟩
    obtain ⟨hrepos_eq, hnext_eq, hk1, hk2, hk3, hk4, hk5, hk6⟩ := hfold
    refine ⟨?_, ?_, hk1, hk2, hk3, hk4, ?_, ?_⟩
    · show ((_ : Store).repositories.map (·.repoId)).Nodup
      rw [hrepos_eq]
      exact hRid1
    · intro r2 hr2
      rw [hrepos_eq] at hr2
      show r2.repoId < (_ : Store).nextRepoId
      rw [hnext_eq]
      rcases List.mem_append.mp hr2 with h | h
      · have := hRbound r2 h
        omega
      · rcases List.mem_singleton.mp h with rfl
        have hnr : newr.repoId = s.nextRepoId := rfl
        omega
    · intro f hf
      have := hk5 f hf
      rw [show (_ : Store).repositories = repos1 from hrepos_eq]
      exact this
    · intro f hf
      have := hk6 f hf
      rw [show (_ : Store).repositories = repos1 from hrepos_eq]
      exact this
  · -- existing repository row; its last-modified time is bumped
    set bump : RepoRow → RepoRow :=
      fun rr => if rr.repoId == r.repoId then { rr with lastModifiedAt := now } else rr
      with hbumpdef
    have hbump : ∀ rr, (bump rr).repoId = rr.repoId ∧ (bump rr).srcPath = rr.srcPath := by
      intro rr
      by_cases hc : rr.repoId = r.repoId <;> simp [hbumpdef, hc]
    set repos1 : List RepoRow := s.repositories.map bump with hrepos1
    have hsrcStable : ∀ x, srcOfRepos repos1 x = srcOfRepos s.repositories x := by
      intro x
      rw [hrepos1]
      exact srcOfRepos_map_preserving s.repositories bump hbump x
    have hRid1 : (repos1.map (·.repoId)).Nodup := by
      rw [hrepos1, map_key_of_preserving s.repositories bump (·.repoId)
        (fun rr _ => (hbump rr).1)]
      exact hRid
    have hrmem : r ∈ s.repositories := List.mem_of_find?_eq_some hfind
    have hrpred := @List.find?_some RepoRow
      (fun r2 => r2.url == url && r2.srcPath == srcFolder && r2.branch == branch)
      r s.repositories hfind
    have hrpred2 : ((r.url == url && r.srcPath == srcFolder) && r.branch == branch) = true :=
      hrpred
    have hrsrc : r.srcPath = srcFolder :=
      eq_of_beq (Bool.and_elim_right (Bool.and_elim_left hrpred2))
    have hsrcNew : srcOfRepos repos1 r.repoId = srcFolder := by
      rw [hsrcStable r.repoId, srcOfRepos_of_mem s.repositories r hrmem hRid, hrsrc]
    have hfold := groupFold_foldInv (group_by_top_level_packages filepaths srcFolder)
      repos1 s.nextRepoId r.repoId fileSummaries now
      ({ s with repositories := repos1 }, [])
      ⟨rfl, rfl, hPkeys, hPids, hPbound, hFkeys,
        (by
          intro f hf
          rcases hFlink f hf with ⟨p, hp, h1, h2, h3⟩
          refine ⟨p, hp, h1, h2, ?_⟩
          rw [h3, hsrcStable]),
        (fun f hf => by
          rcases hFknown f hf with ⟨r2, hr2, hr2e⟩
          exact ⟨bump r2, List.mem_map_of_mem bump hr2, by rw [(hbump r2).1, hr2e]⟩)⟩
      (by
        rw [hsrcNew]
        exact group_by_top_level_packages_names filepaths srcFolder)
      ⟨bump r, List.mem_map_of_mem bump hrmem, (hbump r).1⟩
    obtain ⟨hrepos_eq, hnext_eq, hk1, hk2, hk3, hk4, hk5, hk6⟩ := hfold
    refine ⟨?_, ?_, hk1, hk2, hk3, hk4, ?_, ?_⟩
    · show ((_ : Store).repositories.map (·.repoId)).Nodup
      rw [hrepos_eq]
      exact hRid1
    · intro r2 hr2
      rw [hrepos_eq, hrepos1] at hr2
      show r2.repoId < (_ : Store).nextRepoId
      rw [hnext_eq]
      rcases List.mem_map.mp hr2 with ⟨r3, hr3, hr3e⟩
      rw [← hr3e, (hbump r3).1]
      exact hRbound r3 hr3
    · intro f hf
      have := hk5 f hf
      rw [show (_ : Store).repositories = repos1 from hrepos_eq]
      exact this
    · intro f hf
      have := hk6 f hf
      rw [show (_ : Store).repositories = repos1 from hrepos_eq]
      exact this

/-- A fold of steps that each preserve a key projection preserves the whole
key list. -/
theorem foldl_map_key_preserved {α β γ : Type} (l : List γ) (step : List α → γ → List α)
    (key : α → β) (hstep : ∀ acc x, (step acc x).map key = acc.map key) (init : List α) :
    (l.foldl step init).map key = init.map key := by
  induction l generalizing init with
  | nil => rfl
  | cons x xs ih =>
    rw [List.foldl_cons, ih (step init x), hstep init x]

/-- The full identity projection of a package row that every bump/summary
write preserves. -/
def pkgIdKey (p : PackageRow) : Nat × Nat × Str := (p.repoId, p.packageId, p.packageName)

/-- The bump applied by `handleDeletedFiles` preserves the package identity
fields. -/
theorem deleteBump_fields (s : Store) (rid : Nat) (deleted : List Str) (now : Nat)
    (p : PackageRow) :
    (if p.repoId == rid &&
        decide (p.packageId ∈
          deletedTouched s rid deleted ∩ remainingAfterDelete s rid deleted)
      then { p with lastModifiedAt := now } else p).repoId = p.repoId ∧
    (if p.repoId == rid &&
        decide (p.packageId ∈
          deletedTouched s rid deleted ∩ remainingAfterDelete s rid deleted)
      then { p with lastModifiedAt := now } else p).packageId = p.packageId ∧
    (if p.repoId == rid &&
        decide (p.packageId ∈
          deletedTouched s rid deleted ∩ remainingAfterDelete s rid deleted)
      then { p with lastModifiedAt := now } else p).packageName = p.packageName := by
  by_cases hc : (p.repoId == rid &&
      decide (p.packageId ∈
        deletedTouched s rid deleted ∩ remainingAfterDelete s rid deleted)) = true
  · rw [if_pos hc]; exact ⟨rfl, rfl, rfl⟩
  · rw [if_neg hc]; exact ⟨rfl, rfl, rfl⟩

/-- `handle_update` preserves the store invariant. -/
theorem handle_update_StoreInv (s : Store) (url : Str) (modified deleted : List Str)
    (now : Nat) (hinv : StoreInv s) :
    StoreInv (handle_update s url modified deleted now).1 := by
  obtain ⟨hRid, hRbound, hPkeys, hPids, hPbound, hFkeys, hFlink, hFknown⟩ := hinv
  unfold handle_update
  rcases hfind : s.repositories.find? (fun r => r.url == url) with _ | ⟨repo⟩ <;> rw [hfind]
  · exact ⟨hRid, hRbound, hPkeys, hPids, hPbound, hFkeys, hFlink, hFknown⟩
  · simp only
    set rid := repo.repoId with hriddef
    have hbump : ∀ rr : RepoRow,
        ((if rr.repoId == rid then { rr with lastModifiedAt := now } else rr).repoId = rr.repoId ∧
         (if rr.repoId == rid then { rr with lastModifiedAt := now } else rr).srcPath = rr.srcPath) := by
      intro rr
      by_cases hc : rr.repoId = rid <;> simp [hc]
    set repos1 : List RepoRow := s.repositories.map
      (fun rr => if rr.repoId == rid then { rr with lastModifiedAt := now } else rr)
      with hrepos1
    have hsrcStable : ∀ x, srcOfRepos repos1 x = srcOfRepos s.repositories x := by
      intro x
      rw [hrepos1]
      exact srcOfRepos_map_preserving s.repositories _ hbump x
    have hRid1 : (repos1.map (·.repoId)).Nodup := by
      rw [hrepos1, map_key_of_preserving s.repositories _ (·.repoId) (fun rr _ => (hbump rr).1)]
      exact hRid
    have hRbound1 : ∀ r2 ∈ repos1, r2.repoId < s.nextRepoId := by
      intro r2 hr2
      rw [hrepos1] at hr2
      rcases List.mem_map.mp hr2 with ⟨r3, hr3, hr3e⟩
      rw [← hr3e, (hbump r3).1]
      exact hRbound r3 hr3
    have hknown1 : ∀ x, (∃ r2 ∈ s.repositories, r2.repoId = x) → ∃ r2 ∈ repos1, r2.repoId = x := by
      intro x hx
      rcases hx with ⟨r2, hr2, hr2e⟩
      rw [hrepos1]
      exact ⟨_, List.mem_map_of_mem _ hr2, by rw [(hbump r2).1, hr2e]⟩
    by_cases hdel : deleted.isEmpty = true
    · simp only [hdel, if_true]
      refine ⟨hRid1, hRbound1, hPkeys, hPids, hPbound, hFkeys, ?_, ?_⟩
      · intro f hf
        rcases hFlink f hf with ⟨p, hp, h1, h2, h3⟩
        exact ⟨p, hp, h1, h2, by rw [h3, hsrcStable]⟩
      · intro f hf
        exact hknown1 f.repoId (hFknown f hf)
    · simp only [hdel, Bool.false_eq_true, if_false]
      set pbump : PackageRow → PackageRow := fun p =>
        if p.repoId == rid &&
            decide (p.packageId ∈
              deletedTouched s rid deleted ∩ remainingAfterDelete s rid deleted)
          then { p with lastModifiedAt := now } else p with hpbumpdef
      have hpfields : ∀ p, (pbump p).repoId = p.repoId ∧ (pbump p).packageId = p.packageId ∧
          (pbump p).packageName = p.packageName := fun p => deleteBump_fields s rid deleted now p
      refine ⟨hRid1, hRbound1, ?_, ?_, ?_, ?_, ?_, ?_⟩
      · show (((pkgsKeptAfterDelete s rid deleted).map pbump).map pkgKey).Nodup
        rw [map_key_of_preserving _ pbump pkgKey
          (fun p _ => by
            show pkgKey (pbump p) = pkgKey p
            unfold pkgKey
            rw [(hpfields p).1, (hpfields p).2.2])]
        exact nodup_key_filter s.packages _ pkgKey hPkeys
      · show (((pkgsKeptAfterDelete s rid deleted).map pbump).map (·.packageId)).Nodup
        rw [map_key_of_preserving _ pbump (·.packageId) (fun p _ => (hpfields p).2.1)]
        exact nodup_key_filter s.packages _ (·.packageId) hPids
      · intro p hp
        rcases List.mem_map.mp hp with ⟨q, hq, hqe⟩
        show p.packageId < s.nextPackageId
        rw [← hqe, (hpfields q).2.1]
        exact hPbound q (List.mem_of_mem_filter hq)
      · exact nodup_key_filter s.files _ fileKey hFkeys
      · intro f hf
        have hfmem : f ∈ s.files := List.mem_of_mem_filter hf
        rcases hFlink f hfmem with ⟨p, hp, h1, h2, h3⟩
        have hkept : p ∈ pkgsKeptAfterDelete s rid deleted := by
          apply List.mem_filter.mpr
          refine ⟨hp, ?_⟩
          show (!(p.repoId == rid) ||
            decide (p.packageId ∈ remainingAfterDelete s rid deleted)) = true
          rw [Bool.or_eq_true]
          by_cases hfr : f.repoId = rid
          · right
            apply decide_eq_true
            unfold remainingAfterDelete
            rw [List.mem_toFinset]
            apply List.mem_map.mpr
            refine ⟨f, ?_, h2.symm⟩
            apply List.mem_filter.mpr
            exact ⟨hf, by simp [hfr]⟩
          · left
            rw [Bool.not_eq_eq_eq_not, Bool.not_true, beq_eq_false_iff_ne, h1]
            exact hfr
        refine ⟨pbump p, List.mem_map_of_mem pbump hkept, ?_, ?_, ?_⟩
        · rw [(hpfields p).1]
          exact h1
        · rw [(hpfields p).2.1]
          exact h2
        · rw [(hpfields p).2.2, h3, hsrcStable]
      · intro f hf
        exact hknown1 f.repoId (hFknown f (List.mem_of_mem_filter hf))

/-- The summary write of `save_package_summaries` preserves the package
identity fields. -/
theorem summaryWrite_pkgIdKey (repoId : Nat) (psum : Nat × Str) (now : Nat) (p : PackageRow) :
    pkgIdKey (if p.repoId == repoId && p.packageId == psum.1
      then { p with summary := some psum.2, lastModifiedAt := now } else p) = pkgIdKey p := by
  by_cases hc : (p.repoId == repoId && p.packageId == psum.1) = true
  · rw [if_pos hc]; rfl
  · rw [if_neg hc]

/-- `save_package_summaries` preserves the store invariant. -/
theorem save_package_summaries_StoreInv (s : Store) (repoId : Nat)
    (pkgSummaries : List (Nat × Str)) (now : Nat) (hinv : StoreInv s) :
    StoreInv (save_package_summaries s repoId pkgSummaries now) := by
  obtain ⟨hRid, hRbound, hPkeys, hPids, hPbound, hFkeys, hFlink, hFknown⟩ := hinv
  have hkeys4 : (pkgSummaries.foldl
        (fun ps psum => ps.map
          (fun p => if p.repoId == repoId && p.packageId == psum.1
                    then { p with summary := some psum.2, lastModifiedAt := now } else p))
        s.packages).map pkgIdKey = s.packages.map pkgIdKey := by
    apply foldl_map_key_preserved
    intro acc psum
    exact map_key_of_preserving acc _ pkgIdKey
      (fun p _ => summaryWrite_pkgIdKey repoId psum now p)
  have hpmem : ∀ p ∈ s.packages, ∃ p2 ∈ (save_package_summaries s repoId pkgSummaries now).packages,
      pkgIdKey p2 = pkgIdKey p := by
    intro p hp
    have : pkgIdKey p ∈ (save_package_summaries s repoId pkgSummaries now).packages.map pkgIdKey := by
      show pkgIdKey p ∈ (pkgSummaries.foldl _ s.packages).map pkgIdKey
      rw [hkeys4]
      exact List.mem_map_of_mem pkgIdKey hp
    rcases List.mem_map.mp this with ⟨p2, hp2, hp2e⟩
    exact ⟨p2, hp2, hp2e⟩
  refine ⟨hRid, hRbound, ?_, ?_, ?_, hFkeys, ?_, hFknown⟩
  · show ((pkgSummaries.foldl _ s.packages).map pkgKey).Nodup
    have : (pkgSummaries.foldl
        (fun ps psum => ps.map
          (fun p => if p.repoId == repoId && p.packageId == psum.1
                    then { p with summary := some psum.2, lastModifiedAt := now } else p))
        s.packages).map pkgKey = s.packages.map pkgKey := by
      apply foldl_map_key_preserved
      intro acc psum
      apply map_key_of_preserving
      intro p _
      exact congrArg (fun k => (k.1, k.2.2)) (summaryWrite_pkgIdKey repoId psum now p)
    rw [this]
    exact hPkeys
  · show ((pkgSummaries.foldl _ s.packages).map (·.packageId)).Nodup
    have : (pkgSummaries.foldl
        (fun ps psum => ps.map
          (fun p => if p.repoId == repoId && p.packageId == psum.1
                    then { p with summary := some psum.2, lastModifiedAt := now } else p))
        s.packages).map (·.packageId) = s.packages.map (·.packageId) := by
      apply foldl_map_key_preserved
      intro acc psum
      apply map_key_of_preserving
      intro p _
      exact congrArg (fun k => k.2.1) (summaryWrite_pkgIdKey repoId psum now p)
    rw [this]
    exact hPids
  · intro p hp
    have : p.packageId ∈ (pkgSummaries.foldl
        (fun ps psum => ps.map
          (fun p => if p.repoId == repoId && p.packageId == psum.1
                    then { p with summary := some psum.2, lastModifiedAt := now } else p))
        s.packages).map (·.packageId) := List.mem_map_of_mem _ hp
    rw [foldl_map_key_preserved _ _ _
      (fun acc psum => map_key_of_preserving acc _ _
        (fun p _ => congrArg (fun k => k.2.1) (summaryWrite_pkgIdKey repoId psum now p)))] at this
    rcases List.mem_map.mp this with ⟨q, hq, hqe⟩
    show p.packageId < s.nextPackageId
    rw [← hqe]
    exact hPbound q hq
  · intro f hf
    rcases hFlink f hf with ⟨p, hp, h1, h2, h3⟩
    rcases hpmem p hp with ⟨p2, hp2, hp2e⟩
    have e1 : p2.repoId = p.repoId := congrArg Prod.fst hp2e
    have e2 : p2.packageId = p.packageId := congrArg (fun k => k.2.1) hp2e
    have e3 : p2.packageName = p.packageName := congrArg (fun k => k.2.2) hp2e
    exact ⟨p2, hp2, by rw [e1]; exact h1, by rw [e2]; exact h2, by rw [e3]; exact h3⟩

theorem StoreInv_empty : StoreInv Store.empty :=
  ⟨List.nodup_nil, fun r hr => absurd hr (List.not_mem_nil r), List.nodup_nil, List.nodup_nil,
   fun p hp => absurd hp (List.not_mem_nil p), List.nodup_nil,
   fun f hf => absurd hf (List.not_mem_nil f), fun f hf => absurd hf (List.not_mem_nil f)⟩

/-- An onboarding run preserves the store invariant. -/
theorem onboard_run_StoreInv (s : Store) (url srcFolder branch : Str) (filepaths : List Str)
    (fileSummaries : List FileSummary) (pkgSummaries : List (Nat × Str)) (now : Nat)
    (hinv : StoreInv s) :
    StoreInv (onboard_run s url srcFolder branch filepaths fileSummaries pkgSummaries now).1 := by
  unfold onboard_run
  by_cases hfp : filepaths = []
  · rw [if_pos hfp]
    exact hinv
  · rw [if_neg hfp]
    exact save_package_summaries_StoreInv _ _ _ _
      (save_file_summaries_StoreInv s url srcFolder branch filepaths fileSummaries now hinv)

/-- An update run preserves the store invariant. -/
theorem update_run_StoreInv (s : Store) (url srcFolder branch : Str)
    (modified deleted : List Str) (fileSummaries : List FileSummary)
    (pkgSummaries : List (Nat × Str)) (now : Nat) (hinv : StoreInv s) :
    StoreInv (update_run s url srcFolder branch modified deleted fileSummaries
      pkgSummaries now).1 := by
  have h1 := handle_update_StoreInv s url modified deleted now hinv
  unfold update_run
  unfold handle_update at h1 ⊢
  rcases hfind : s.repositories.find? (fun r => r.url == url) with _ | ⟨repo⟩ <;>
    rw [hfind] at h1 ⊢
  · exact h1
  · by_cases hfp : modified = []
    · simp only [hfp, if_true]
      by_cases hne : (if deleted.isEmpty = true
          then (s.packages, s.files, (∅ : Finset Nat))
          else handleDeletedFiles s repo.repoId deleted now).2.2 ≠ ∅
      · rw [if_pos hne]
        exact save_package_summaries_StoreInv _ _ _ _ h1
      · rw [if_neg hne]
        exact h1
    · simp only [hfp, if_false]
      exact save_package_summaries_StoreInv _ _ _ _
        (save_file_summaries_StoreInv _ url srcFolder branch modified fileSummaries now h1)

/-- Every sequence of build runs starting from the empty store maintains the
store invariant. -/
theorem apply_build_runs_StoreInv (runs : List BuildRun) (s : Store) (hinv : StoreInv s) :
    StoreInv (apply_build_runs s runs) := by
  induction runs generalizing s with
  | nil => exact hinv
  | cons run rest ih =>
    show StoreInv (apply_build_runs (BuildRun.apply s run) rest)
    apply ih
    cases run with
    | onboard u sf b fps sums psums now =>
      exact onboard_run_StoreInv s u sf b fps sums psums now hinv
    | update u sf b mods dels sums psums now =>
      exact update_run_StoreInv s u sf b mods dels sums psums now hinv

/-- The store invariant forces at most one File row per
`(repository id, path)`: the linkage through the unique package keys pins the
`package_id` of any two rows sharing a repository and path. -/
theorem StoreInv_filePathKeysNodup (s : Store) (hinv : StoreInv s) : filePathKeysNodup s := by
  obtain ⟨_, _, hPkeys, _, _, hFkeys, hFlink, _⟩ := hinv
  have hnd : s.files.Nodup := List.Nodup.of_map fileKey hFkeys
  show (s.files.map (fun f => (f.repoId, f.filePath))).Nodup
  apply (List.nodup_map_iff_inj_on hnd).mpr
  intro x hx y hy hxy
  have h1 : x.repoId = y.repoId := congrArg Prod.fst hxy
  have h2 : x.filePath = y.filePath := congrArg Prod.snd hxy
  rcases hFlink x hx with ⟨px, hpx, e1, e2, e3⟩
  rcases hFlink y hy with ⟨py, hpy, f1, f2, f3⟩
  have e1b : px.repoId = x.repoId := e1
  have e2b : px.packageId = x.packageId := e2
  have e3b : px.packageName = topLevelPackage x.filePath (srcOfRepos s.repositories x.repoId) :=
    e3
  have f1b : py.repoId = y.repoId := f1
  have f2b : py.packageId = y.packageId := f2
  have f3b : py.packageName = topLevelPackage y.filePath (srcOfRepos s.repositories y.repoId) :=
    f3
  have hname : px.packageName = py.packageName := by
    rw [e3b, f3b, h1, h2]
  have hkey : pkgKey px = pkgKey py := by
    unfold pkgKey
    rw [e1b, f1b, h1, hname]
  have hpeq : px = py := List.inj_on_of_nodup_map hPkeys hpx hpy hkey
  have hid : x.packageId = y.packageId := by
    rw [← e2b, ← f2b, hpeq]
  have hfk : fileKey x = fileKey y := by
    unfold fileKey
    rw [h1, h2, hid]
  exact List.inj_on_of_nodup_map hFkeys hx hy hfk

/-- C9: File rows are upserted by path.  (a) After any sequence of build runs
starting from the fresh store, there is at most one File row per
`(repository id, path)` — the per-repository source folder makes the path
determine the package, whose business key pins the upsert's
`(repo_id, package_id, file_path)` conflict target.  (b) A write whose
conflict key already has a row updates that row in place instead of inserting
a second one (the row count is unchanged). -/
theorem file_rows_unique_per_repo_and_path :
    (∀ runs : List BuildRun, filePathKeysNodup (apply_build_runs Store.empty runs))
  ∧ (∀ (fs : List FileRow) (rid pid : Nat) (path summ : Str) (now : Nat),
      fs.any (fun f => f.repoId == rid && f.packageId == pid && f.filePath == path) = true →
      (upsertFileRow fs rid pid path summ now).length = fs.length) := by
  constructor
  · intro runs
    exact StoreInv_filePathKeysNodup _ (apply_build_runs_StoreInv runs Store.empty StoreInv_empty)
  · intro fs rid pid path summ now h
    unfold upsertFileRow
    rw [if_pos h, List.length_map]

/-- C9 witness: one onboard run followed by an update keeps the file keys
unique, and an upsert on an existing key does not grow the relation. -/
theorem file_rows_unique_witness :
    filePathKeysNodup (apply_build_runs Store.empty
      [BuildRun.onboard "u".toList "src".toList "main".toList
        ["src/p/a.py".toList] [⟨"src/p/a.py".toList, "s1".toList⟩] [] 1,
       BuildRun.update "u".toList "src".toList "main".toList
        ["src/p/a.py".toList] [] [⟨"src/p/a.py".toList, "s2".toList⟩] [] 2])
  ∧ (upsertFileRow [⟨1, 1, "src/p/a.py".toList, "s1".toList, 1, 1⟩] 1 1
      "src/p/a.py".toList "s2".toList 2).length = 1 :=
  ⟨file_rows_unique_per_repo_and_path.1 _,
   file_rows_unique_per_repo_and_path.2 [⟨1, 1, "src/p/a.py".toList, "s1".toList, 1, 1⟩] 1 1
     "src/p/a.py".toList "s2".toList 2 (by decide)⟩

/-- C6: an empty stage-1 result is a valid outcome, not an error: for every
repository state, stage 2 runs on an empty corpus and returns `ok` with
whatever the ranking capability answers on it, without raising. -/
theorem empty_stage1_result_is_valid (s : Store) (repoId : Nat)
    (idx : List (Str × Nat)) (rankFiles : List (Str × Str) → List FileSuggestion) :
    localize_files s ⟨repoId, idx, []⟩ rankFiles = .ok (rankFiles []) := by
  unfold localize_files
  have hrows : s.files.filter
      (fun f => f.repoId == repoId && ([] : List Nat).contains f.packageId) = [] := by
    simp [List.filter_eq_nil_iff]
  simp only [List.mapM_nil, pure]
  rw [hrows]
  rfl

end SeAgent
